import Mathlib

/-!
Verification development for the cascade graph application.

The embedding models, over lists of characters in place of JavaScript
strings, the code of:
  - src/services/geminiService.ts  (the three content caches, the cache
    keys, the retry loop around the external generator),
  - src/App.tsx  (graph state, ancestor-chain walk, descendant collection,
    the expand / refresh / country-change handlers, initialization),
  - the key codec sanitizeKey / unsanitizeKey of the Firebase service file.

JavaScript strings are modelled as `List Char`; the unbounded while-loops
of the source (the ancestor walk and the recursive descendant collection)
are modelled with an explicit fuel argument, with theorems showing the
chosen fuel suffices on the states of interest.
-/

namespace Cascade

/-- Strings of the TypeScript source, modelled as lists of characters. -/
abbrev Str := List Char

/-- Node type, from src/types.ts. -/
inductive NodeType where
  | root
  | primary_effect
  | consequence
  | response
  deriving DecidableEq

/-- Graph node, from src/types.ts (presentation-only fields such as color
and the d3 coordinates are omitted; the optional `isExpanded` flag is
modelled as a `Bool`, with the absent value identified with `false` since
the source only ever tests its truthiness). -/
structure GraphNode where
  id : Str
  label : Str
  parentId : Option Str
  depth : Nat
  isExpanded : Bool
  nodeType : NodeType
  deriving DecidableEq

/-- Graph link, from src/types.ts. -/
structure GraphLink where
  source : Str
  target : Str
  deriving DecidableEq

/-- Graph data, from src/types.ts. -/
structure GraphData where
  nodes : List GraphNode
  links : List GraphLink
  deriving DecidableEq

/-- Narrative payload, from src/types.ts. -/
structure NodeMemory where
  context : Str
  reflections : List Str
  affectedEntities : List Str
  deriving DecidableEq

/-- Severity score entry, from src/types.ts (scores modelled as naturals). -/
structure SeverityScore where
  category : Str
  institutional : Nat
  human : Nat
  deriving DecidableEq

/-- Result of one expansion, from geminiService.ts. -/
structure ExpandResult where
  consequences : List Str
  responses : List Str
  deriving DecidableEq

/-- Lookup in an insertion-ordered association list, the model of a
JavaScript `Map.get` / `Map.has`. -/
def lookupA {α : Type} (m : List (Str × α)) (k : Str) : Option α :=
  (m.find? (fun e => e.1 = k)).map (fun e => e.2)

/-- Overwrite-or-insert, the model of `Map.set`: an existing key keeps its
position, a new key is appended. -/
def setA {α : Type} (m : List (Str × α)) (k : Str) (v : α) : List (Str × α) :=
  if (m.find? (fun e => e.1 = k)).isSome then
    m.map (fun e => if e.1 = k then (k, v) else e)
  else
    m ++ [(k, v)]

/-- Deletion, the model of `Map.delete`. -/
def delA {α : Type} (m : List (Str × α)) (k : Str) : List (Str × α) :=
  m.filter (fun e => decide (e.1 ≠ k))

/-- Separator join, the model of `Array.prototype.join` with a one-character
separator. -/
def joinSep (sep : Char) : List Str → Str
  | [] => []
  | [a] => a
  | a :: b :: rest => a ++ sep :: joinSep sep (b :: rest)

/-- The expansion cache key, from geminiService.ts lines 73-79 and 234-240:
`parentChain.length > 0 ? nodeLabel + "|" + parentChain.join(">") : nodeLabel`.
The selected country does not enter the key. -/
def cacheKey (nodeLabel : Str) (parentChain : List Str) : Str :=
  if 0 < parentChain.length then nodeLabel ++ '|' :: joinSep '>' parentChain
  else nodeLabel

/-- Largest depth occurring in a node list, used to size the fuel of the
two graph walks. -/
def maxDepthOf (nodes : List GraphNode) : Nat :=
  (nodes.map (fun n => n.depth)).foldr max 0

/-- One fuelled unfolding of the while-loop of buildParentChain
(src/App.tsx lines 207-221): while the current id is a nonempty string,
look the node up, stop on a missing node or on the root sentinel,
otherwise prepend the label and move to the parent (an absent parentId
becomes the empty string, which ends the loop). -/
def chainStep (nodes : List GraphNode) : Nat → Str → List Str → List Str
  | 0, _, acc => acc
  | fuel + 1, currentId, acc =>
    if currentId = [] then acc
    else
      match nodes.find? (fun n => n.id = currentId) with
      | none => acc
      | some node =>
        if currentId = "root".toList then acc
        else chainStep nodes fuel (node.parentId.getD []) (node.label :: acc)

/-- buildParentChain of src/App.tsx. The source loop is unbounded; the
fuel `maxDepthOf + 2` is shown sufficient on every invariant-satisfying
state (the walk strictly descends in depth), so on those states this
definition computes exactly what the source loop computes. -/
def buildParentChain (g : GraphData) (nodeId : Str) : List Str :=
  chainStep g.nodes (maxDepthOf g.nodes + 2) nodeId []

/-- Fuelled unfolding of the recursive getDescendants of src/App.tsx lines
282-289: children ids first, then each child's descendants in order. -/
def descFuel (nodes : List GraphNode) : Nat → Str → List Str
  | 0, _ => []
  | fuel + 1, nodeId =>
    let children := nodes.filter (fun n => decide (n.parentId = some nodeId))
    children.map (fun c => c.id) ++ (children.map (fun c => descFuel nodes fuel c.id)).flatten

/-- getDescendants of src/App.tsx. As with buildParentChain, the fuel
`maxDepthOf + 2` is shown sufficient on invariant-satisfying states. -/
def getDescendants (g : GraphData) (nodeId : Str) : List Str :=
  descFuel g.nodes (maxDepthOf g.nodes + 2) nodeId

/-- Leftmost, non-overlapping replace-all over character lists, the model
of `String.prototype.replace` with a global pattern. The second argument
counts characters still to be skipped after a replacement (the pattern's
remaining length), during which no new match is sought. -/
def replAux (pat rep : Str) : Str → Nat → Str
  | [], _ => []
  | _ :: rest, k + 1 => replAux pat rep rest k
  | c :: rest, 0 =>
    if pat.isPrefixOf (c :: rest) then rep ++ replAux pat rep rest (pat.length - 1)
    else c :: replAux pat rep rest 0

/-- Replace every leftmost, non-overlapping occurrence of `pat` by `rep`. -/
def replaceAll (pat rep s : Str) : Str :=
  replAux pat rep s 0

/-- sanitizeKey of the Firebase service file (src/unnamed/part_000 lines
31-42): nine global single-character replacements applied in order. -/
def sanitizeKey (key : Str) : Str :=
  let s1 := replaceAll "|".toList "_pipe_".toList key
  let s2 := replaceAll ">".toList "_gt_".toList s1
  let s3 := replaceAll "<".toList "_lt_".toList s2
  let s4 := replaceAll "/".toList "_slash_".toList s3
  let s5 := replaceAll ".".toList "_dot_".toList s4
  let s6 := replaceAll "#".toList "_hash_".toList s5
  let s7 := replaceAll "$".toList "_dollar_".toList s6
  let s8 := replaceAll "[".toList "_lbracket_".toList s7
  replaceAll "]".toList "_rbracket_".toList s8

/-- unsanitizeKey of the Firebase service file (src/unnamed/part_000 lines
44-55): the nine markers replaced back, in the same order. -/
def unsanitizeKey (key : Str) : Str :=
  let s1 := replaceAll "_pipe_".toList "|".toList key
  let s2 := replaceAll "_gt_".toList ">".toList s1
  let s3 := replaceAll "_lt_".toList "<".toList s2
  let s4 := replaceAll "_slash_".toList "/".toList s3
  let s5 := replaceAll "_dot_".toList ".".toList s4
  let s6 := replaceAll "_hash_".toList "#".toList s5
  let s7 := replaceAll "_dollar_".toList "$".toList s6
  let s8 := replaceAll "_lbracket_".toList "[".toList s7
  replaceAll "_rbracket_".toList "]".toList s8

/-- The attempt loop of generateWithRetries (geminiService.ts lines
169-203), recursing on the number of attempts still allowed; the oracle is
indexed by the attempt number. -/
def gwrAux {α : Type} (g : Nat → Except Unit α) : Nat → Nat → Except Unit α
  | 0, _ => Except.error ()
  | remaining + 1, attempt =>
    match g attempt with
    | Except.ok v => Except.ok v
    | Except.error _ => gwrAux g remaining (attempt + 1)

/-- generateWithRetries of geminiService.ts: up to `maxRetries` attempts
(the source default is 3), a terminal error once they are exhausted. The
real backoff delays are timing behaviour outside the model. -/
def generateWithRetries {α : Type} (g : Nat → Except Unit α) (maxRetries : Nat) : Except Unit α :=
  gwrAux g maxRetries 0

/-- The three module-level caches of geminiService.ts, plus an external
generation-call counter used to state the call-counting claims. -/
structure SvcState where
  memoryCache : List (Str × NodeMemory)
  severityCache : List (Str × List SeverityScore)
  expandCache : List (Str × ExpandResult)
  genCalls : Nat
  deriving DecidableEq

/-- Oracles standing for the external generator: one per service, indexed
by the prompt inputs actually used by the source and by the attempt
number. getNodeMemory and getSeverityScores build their prompts from the
label and the country only, so their oracles do not receive the chain. -/
structure GenOracle where
  expandGen : Str → List Str → Option Str → Nat → Except Unit ExpandResult
  memoryGen : Str → Option Str → Nat → Except Unit NodeMemory
  severityGen : Str → Option Str → Nat → Except Unit (List SeverityScore)

/-- expandNode of geminiService.ts (lines 234-302, same cache discipline as
the mock at lines 73-101): consult the expansion cache under
`cacheKey label chain`, on a miss invoke the generator (counted), on
success store the result under the same key. -/
def expandNode (o : GenOracle) (st : SvcState) (nodeLabel : Str) (parentChain : List Str)
    (country : Option Str) : Except Unit ExpandResult × SvcState :=
  let key := cacheKey nodeLabel parentChain
  match lookupA st.expandCache key with
  | some r => (Except.ok r, st)
  | none =>
    match generateWithRetries (o.expandGen nodeLabel parentChain country) 3 with
    | Except.error e => (Except.error e, { st with genCalls := st.genCalls + 1 })
    | Except.ok r =>
      (Except.ok r,
       { st with genCalls := st.genCalls + 1, expandCache := setA st.expandCache key r })

/-- getNodeMemory of geminiService.ts (lines 304-341, mock lines 103-126):
the cache is consulted and populated under the label alone; the
parentChain parameter is accepted but never used by the body, so it is
ignored here exactly as in the source. -/
def getNodeMemory (o : GenOracle) (st : SvcState) (nodeLabel : Str) (_parentChain : List Str)
    (country : Option Str) : Except Unit NodeMemory × SvcState :=
  match lookupA st.memoryCache nodeLabel with
  | some v => (Except.ok v, st)
  | none =>
    match generateWithRetries (o.memoryGen nodeLabel country) 3 with
    | Except.error e => (Except.error e, { st with genCalls := st.genCalls + 1 })
    | Except.ok v =>
      (Except.ok v,
       { st with genCalls := st.genCalls + 1, memoryCache := setA st.memoryCache nodeLabel v })

/-- getSeverityScores of geminiService.ts (lines 343-375, mock lines
128-154): cache keyed by the label alone. -/
def getSeverityScores (o : GenOracle) (st : SvcState) (nodeLabel : Str) (_parentChain : List Str)
    (country : Option Str) : Except Unit (List SeverityScore) × SvcState :=
  match lookupA st.severityCache nodeLabel with
  | some v => (Except.ok v, st)
  | none =>
    match generateWithRetries (o.severityGen nodeLabel country) 3 with
    | Except.error e => (Except.error e, { st with genCalls := st.genCalls + 1 })
    | Except.ok v =>
      (Except.ok v,
       { st with genCalls := st.genCalls + 1, severityCache := setA st.severityCache nodeLabel v })

/-- clearNodeCache of geminiService.ts lines 43-47. -/
def clearNodeCache (st : SvcState) (nodeLabel : Str) (parentChain : List Str) : SvcState :=
  { st with expandCache := delA st.expandCache (cacheKey nodeLabel parentChain) }

/-- clearAllCaches of geminiService.ts lines 50-55. -/
def clearAllCaches (st : SvcState) : SvcState :=
  { st with memoryCache := [], severityCache := [], expandCache := [] }

/-- Full application state seen by the handlers of src/App.tsx: the graph,
the service caches, and the selected country. -/
structure AppState where
  graph : GraphData
  svc : SvcState
  selectedCountry : Option Str
  deriving DecidableEq

/-- Child-node construction of src/App.tsx (lines 241-257 and 325-341):
each label becomes a node with a fresh id, the parent's id as parentId and
the parent's depth plus one. The fresh ids produced by uuidv4 are supplied
as a list and consumed positionally. -/
def mkNodes (parent : GraphNode) (nt : NodeType) : List Str → List Str → List GraphNode
  | lab :: labs, i :: ids =>
    { id := i, label := lab, parentId := some parent.id, depth := parent.depth + 1,
      isExpanded := false, nodeType := nt } :: mkNodes parent nt labs ids
  | _, _ => []

/-- The commit step shared by handleExpandNode and handleRefreshNode
(src/App.tsx lines 241-265 and 325-349): build consequence and response
children, derive one link per child, mark the parent expanded, append. -/
def attachChildren (g : GraphData) (node : GraphNode) (res : ExpandResult)
    (freshIds : List Str) : GraphData :=
  let consequenceNodes :=
    mkNodes node NodeType.consequence res.consequences (freshIds.take res.consequences.length)
  let responseNodes :=
    mkNodes node NodeType.response res.responses (freshIds.drop res.consequences.length)
  let newNodes := consequenceNodes ++ responseNodes
  let newLinks := newNodes.map (fun n => { source := n.parentId.getD [], target := n.id : GraphLink })
  { nodes := g.nodes.map (fun n => if n.id = node.id then { n with isExpanded := true } else n)
      ++ newNodes,
    links := g.links ++ newLinks }

/-- handleExpandNode of src/App.tsx lines 223-274, run to completion as one
sequential operation: guard on the passed snapshot's isExpanded flag and on
depth 50, build the ancestor chain, call the expansion service, commit on
success; the catch block leaves the graph untouched on failure. -/
def handleExpandNode (o : GenOracle) (freshIds : List Str) (node : GraphNode)
    (s : AppState) : AppState :=
  if node.isExpanded = true ∨ 50 ≤ node.depth then s
  else
    let parentChain := buildParentChain s.graph node.id
    match expandNode o s.svc node.label parentChain s.selectedCountry with
    | (Except.error _, svc2) => { s with svc := svc2 }
    | (Except.ok r, svc2) => { s with svc := svc2, graph := attachChildren s.graph node r freshIds }

/-- handleRefreshNode of src/App.tsx lines 276-361, run sequentially:
guard on a collapsed node, collect the descendants, prune them and their
links while resetting the node's flag, clear the node's exact expansion
cache entry, regenerate, and re-attach. The ancestor chain is computed
from the pre-prune node list, as the source closure does. -/
def handleRefreshNode (o : GenOracle) (freshIds : List Str) (node : GraphNode)
    (s : AppState) : AppState :=
  if node.isExpanded = false then s
  else
    let descendantIds := getDescendants s.graph node.id
    let prunedGraph : GraphData :=
      { nodes := (s.graph.nodes.filter (fun n => decide (n.id ∉ descendantIds))).map
          (fun n => if n.id = node.id then { n with isExpanded := false } else n),
        links := s.graph.links.filter
          (fun l => decide (l.source ∉ descendantIds ∧ l.target ∉ descendantIds)) }
    let parentChain := buildParentChain s.graph node.id
    let svc1 := clearNodeCache s.svc node.label parentChain
    match expandNode o svc1 node.label parentChain s.selectedCountry with
    | (Except.error _, svc2) => { s with graph := prunedGraph, svc := svc2 }
    | (Except.ok r, svc2) =>
      { s with svc := svc2, graph := attachChildren prunedGraph node r freshIds }

/-- handleCountryChange of src/App.tsx lines 65-108: clear all three
caches, keep only nodes of depth at most 1, reset their isExpanded flag to
(depth = 0), keep only links between kept nodes, record the new country. -/
def handleCountryChange (newCountry : Option Str) (s : AppState) : AppState :=
  let svc2 := clearAllCaches s.svc
  let nodesToKeep := s.graph.nodes.filter (fun n => decide (n.depth ≤ 1))
  let nodeIdsToKeep : List Str := nodesToKeep.map (fun n => n.id)
  let resetNodes := nodesToKeep.map (fun n => { n with isExpanded := decide (n.depth = 0) })
  let linksToKeep := s.graph.links.filter
    (fun l => decide (l.source ∈ nodeIdsToKeep) && decide (l.target ∈ nodeIdsToKeep))
  { graph := { nodes := resetNodes, links := linksToKeep },
    svc := svc2, selectedCountry := newCountry }

/-- The from-scratch initialization path of src/App.tsx lines 134-161:
the fixed root node plus one primary-effect child per generated branch
label, links derived from parentage. -/
def initGraph (initialBranches : List Str) (freshIds : List Str) : GraphData :=
  let rootNode : GraphNode :=
    { id := "root".toList, label := "National Riots for Democracy".toList,
      parentId := none, depth := 0, isExpanded := true, nodeType := NodeType.root }
  let newNodes := rootNode :: mkNodes rootNode NodeType.primary_effect initialBranches freshIds
  let newLinks := (newNodes.filter (fun n => n.parentId.isSome)).map
    (fun n => { source := n.parentId.getD [], target := n.id : GraphLink })
  { nodes := newNodes, links := newLinks }

/-- Outcome of the synchronous segment of one expand call. -/
inductive PhaseOneOutcome where
  | guarded
  | hit (key : Str) (r : ExpandResult)
  | generating (key : Str) (chain : List Str)
  deriving DecidableEq

/-- The synchronous segment of handleExpandNode together with the body of
expandNode up to its first await: the guard, the ancestor chain, the cache
key, the cache lookup, and — on a miss — the start of the external
generation (counted at invocation). Everything here runs before the first
suspension point, so two overlapping expand calls each execute this
segment against the state left by the other. -/
def expandPhaseOne (node : GraphNode) (s : AppState) : AppState × PhaseOneOutcome :=
  if node.isExpanded = true ∨ 50 ≤ node.depth then (s, PhaseOneOutcome.guarded)
  else
    let parentChain := buildParentChain s.graph node.id
    let key := cacheKey node.label parentChain
    match lookupA s.svc.expandCache key with
    | some r => (s, PhaseOneOutcome.hit key r)
    | none =>
      ({ s with svc := { s.svc with genCalls := s.svc.genCalls + 1 } },
       PhaseOneOutcome.generating key parentChain)

/-! ### Association-list facts used by the cache theorems -/

theorem lookupA_cons {α : Type} (e : Str × α) (t : List (Str × α)) (k : Str) :
    lookupA (e :: t) k = if e.1 = k then some e.2 else lookupA t k := by
  by_cases h : e.1 = k <;> simp [lookupA, List.find?_cons, h]

theorem lookupA_append {α : Type} (m1 m2 : List (Str × α)) (k : Str) :
    lookupA (m1 ++ m2) k = (lookupA m1 k).or (lookupA m2 k) := by
  simp only [lookupA, List.find?_append]
  cases m1.find? (fun e => decide (e.1 = k)) <;> simp

theorem lookupA_none_of_find?_none {α : Type} (m : List (Str × α)) (k : Str)
    (h : m.find? (fun e => decide (e.1 = k)) = none) : lookupA m k = none := by
  simp [lookupA, h]

theorem lookupA_map_set_self {α : Type} (m : List (Str × α)) (k : Str) (v : α)
    (h : (m.find? (fun e => decide (e.1 = k))).isSome) :
    lookupA (m.map (fun x => if x.1 = k then (k, v) else x)) k = some v := by
  induction m with
  | nil => simp at h
  | cons e t ih =>
    rw [List.map_cons, lookupA_cons]
    by_cases he : e.1 = k
    · rw [if_pos he]
      show (if k = k then some v else _) = some v
      rw [if_pos rfl]
    · rw [if_neg he, if_neg he]
      have h2 : (t.find? (fun e => decide (e.1 = k))).isSome := by
        rw [List.find?_cons] at h
        rw [decide_eq_false he] at h
        exact h
      exact ih h2

theorem lookupA_map_set_other {α : Type} (m : List (Str × α)) (k k2 : Str) (v : α)
    (hne : k2 ≠ k) :
    lookupA (m.map (fun x => if x.1 = k then (k, v) else x)) k2 = lookupA m k2 := by
  induction m with
  | nil => simp
  | cons e t ih =>
    rw [List.map_cons, lookupA_cons, lookupA_cons]
    by_cases he : e.1 = k
    · have hk : ¬ (k = k2) := fun h => hne h.symm
      have he2 : ¬ (e.1 = k2) := by rw [he]; exact hk
      rw [if_pos he, if_neg he2]
      show (if k = k2 then some v else _) = _
      rw [if_neg hk]
      exact ih
    · rw [if_neg he]
      by_cases he2 : e.1 = k2
      · rw [if_pos he2, if_pos he2]
      · rw [if_neg he2, if_neg he2]
        exact ih

theorem lookupA_setA_self {α : Type} (m : List (Str × α)) (k : Str) (v : α) :
    lookupA (setA m k v) k = some v := by
  by_cases h : (m.find? (fun e => decide (e.1 = k))).isSome
  · simp only [setA, h, if_true]
    exact lookupA_map_set_self m k v h
  · simp only [setA, h, Bool.false_eq_true, if_false]
    rw [lookupA_append]
    have hnone : m.find? (fun e => decide (e.1 = k)) = none := by
      cases hf : m.find? (fun e => decide (e.1 = k)) with
      | none => rfl
      | some e => rw [hf] at h; simp at h
    rw [lookupA_none_of_find?_none m k hnone]
    simp [lookupA_cons]

theorem lookupA_setA_other {α : Type} (m : List (Str × α)) (k k2 : Str) (v : α)
    (hne : k2 ≠ k) : lookupA (setA m k v) k2 = lookupA m k2 := by
  by_cases h : (m.find? (fun e => decide (e.1 = k))).isSome
  · simp only [setA, h, if_true]
    exact lookupA_map_set_other m k k2 v hne
  · simp only [setA, h, Bool.false_eq_true, if_false]
    rw [lookupA_append]
    have : lookupA [(k, v)] k2 = none := by
      have : ¬ (k = k2) := fun h2 => hne h2.symm
      simp [lookupA_cons, this, lookupA]
    rw [this]
    cases lookupA m k2 <;> simp

/-! ### Injectivity of the joined cache key over separator-free chains -/

theorem sepFree_split (sep : Char) :
    ∀ (a1 a2 r1 r2 : Str), sep ∉ a1 → sep ∉ a2 →
    (r1 = [] ∨ ∃ t, r1 = sep :: t) → (r2 = [] ∨ ∃ t, r2 = sep :: t) →
    a1 ++ r1 = a2 ++ r2 → a1 = a2 ∧ r1 = r2 := by
  intro a1
  induction a1 with
  | nil =>
    intro a2 r1 r2 _ hs2 hr1 hr2 heq
    cases a2 with
    | nil => exact ⟨rfl, heq⟩
    | cons c t2 =>
      exfalso
      simp only [List.nil_append, List.cons_append] at heq
      rcases hr1 with h | ⟨t, ht⟩
      · rw [h] at heq; exact (List.cons_ne_nil _ _) heq.symm
      · rw [ht] at heq
        have : c = sep := (List.cons.injEq _ _ _ _ ▸ heq).1.symm
        exact hs2 (this ▸ List.mem_cons_self c t2)
  | cons c t1 ih =>
    intro a2 r1 r2 hs1 hs2 hr1 hr2 heq
    cases a2 with
    | nil =>
      exfalso
      simp only [List.nil_append, List.cons_append] at heq
      rcases hr2 with h | ⟨t, ht⟩
      · rw [h] at heq; exact (List.cons_ne_nil _ _) heq
      · rw [ht] at heq
        have : c = sep := (List.cons.injEq _ _ _ _ ▸ heq).1
        exact hs1 (this ▸ List.mem_cons_self c t1)
    | cons d t2 =>
      simp only [List.cons_append, List.cons.injEq] at heq
      obtain ⟨hcd, htail⟩ := heq
      have hs1t : sep ∉ t1 := fun h => hs1 (List.mem_cons_of_mem c h)
      have hs2t : sep ∉ t2 := fun h => hs2 (List.mem_cons_of_mem d h)
      obtain ⟨he, hr⟩ := ih t2 r1 r2 hs1t hs2t hr1 hr2 htail
      exact ⟨by rw [hcd, he], hr⟩

theorem joinSep_cons (sep : Char) (a : Str) (rest : List Str) :
    joinSep sep (a :: rest) =
      a ++ (if rest = [] then [] else sep :: joinSep sep rest) := by
  cases rest with
  | nil => simp [joinSep]
  | cons b r2 => simp [joinSep]

theorem joinSep_inj (sep : Char) :
    ∀ (l1 l2 : List Str), (∀ s ∈ l1, sep ∉ s) → (∀ s ∈ l2, sep ∉ s) →
    l1 ≠ [] → l2 ≠ [] → joinSep sep l1 = joinSep sep l2 → l1 = l2 := by
  intro l1
  induction l1 with
  | nil => intro l2 _ _ h; exact absurd rfl h
  | cons a t1 ih =>
    intro l2 hf1 hf2 _ hne2 heq
    cases l2 with
    | nil => exact absurd rfl hne2
    | cons b t2 =>
      rw [joinSep_cons, joinSep_cons] at heq
      have ha : sep ∉ a := hf1 a (List.mem_cons_self a t1)
      have hb : sep ∉ b := hf2 b (List.mem_cons_self b t2)
      have hshape1 : (if t1 = [] then ([] : Str) else sep :: joinSep sep t1) = [] ∨
          ∃ t, (if t1 = [] then ([] : Str) else sep :: joinSep sep t1) = sep :: t := by
        by_cases h : t1 = [] <;> simp [h]
      have hshape2 : (if t2 = [] then ([] : Str) else sep :: joinSep sep t2) = [] ∨
          ∃ t, (if t2 = [] then ([] : Str) else sep :: joinSep sep t2) = sep :: t := by
        by_cases h : t2 = [] <;> simp [h]
      obtain ⟨hab, htails⟩ := sepFree_split sep a b _ _ ha hb hshape1 hshape2 heq
      by_cases h1 : t1 = []
      · by_cases h2 : t2 = []
        · rw [hab, h1, h2]
        · rw [if_pos h1, if_neg h2] at htails
          exact absurd htails.symm (List.cons_ne_nil _ _)
      · by_cases h2 : t2 = []
        · rw [if_neg h1, if_pos h2] at htails
          exact absurd htails (List.cons_ne_nil _ _)
        · rw [if_neg h1, if_neg h2] at htails
          have hjoin : joinSep sep t1 = joinSep sep t2 := (List.cons.injEq _ _ _ _ ▸ htails).2
          have ht1f : ∀ s ∈ t1, sep ∉ s := fun s hs => hf1 s (List.mem_cons_of_mem a hs)
          have ht2f : ∀ s ∈ t2, sep ∉ s := fun s hs => hf2 s (List.mem_cons_of_mem b hs)
          rw [hab, ih t2 ht1f ht2f h1 h2 hjoin]

/-- Injectivity of the expansion cache key in the chain argument, for
chains whose labels avoid the '>' separator; shared by the theorems about
claims on cache-key distinctness. -/
theorem cacheKey_chain_inj (label : Str) (c1 c2 : List Str)
    (hf1 : ∀ s ∈ c1, '>' ∉ s) (hf2 : ∀ s ∈ c2, '>' ∉ s)
    (hne : c1 ≠ c2) : cacheKey label c1 ≠ cacheKey label c2 := by
  intro heq
  unfold cacheKey at heq
  by_cases h1 : 0 < c1.length
  · by_cases h2 : 0 < c2.length
    · rw [if_pos h1, if_pos h2] at heq
      have hj : '|' :: joinSep '>' c1 = '|' :: joinSep '>' c2 := List.append_cancel_left heq
      have hjoin : joinSep '>' c1 = joinSep '>' c2 := (List.cons.injEq _ _ _ _ ▸ hj).2
      have hne1 : c1 ≠ [] := List.length_pos.mp h1
      have hne2 : c2 ≠ [] := List.length_pos.mp h2
      exact hne (joinSep_inj '>' c1 c2 hf1 hf2 hne1 hne2 hjoin)
    · rw [if_pos h1, if_neg h2] at heq
      have := congrArg List.length heq
      simp at this
  · by_cases h2 : 0 < c2.length
    · rw [if_neg h1, if_pos h2] at heq
      have := congrArg List.length heq
      simp at this
    · have e1 : c1 = [] := List.length_eq_zero.mp (Nat.eq_zero_of_not_pos h1)
      have e2 : c2 = [] := List.length_eq_zero.mp (Nat.eq_zero_of_not_pos h2)
      exact hne (e1 ▸ e2 ▸ rfl)

/-! ### Claims C1, C5, C7, C8 -/

/-- Claim C1, amended. The expansion cache key is a deterministic function
of the label and the ordered ancestor chain (the country, contrary to the
claim's source sentence, never enters the key, which only strengthens the
determinism part); and for a fixed label two differing chains yield
distinct keys PROVIDED no chain label contains the '>' join separator.
The proviso is forced by the counterexample below: the key flattens the
chain with an unescaped '>' join, so chains that differ only in how their
text splits into labels collide. -/
theorem claim1_cacheKey_chain_distinct (label : Str) (c1 c2 : List Str)
    (hf1 : ∀ s ∈ c1, '>' ∉ s) (hf2 : ∀ s ∈ c2, '>' ∉ s)
    (hne : c1 ≠ c2) : cacheKey label c1 ≠ cacheKey label c2 :=
  cacheKey_chain_inj label c1 c2 hf1 hf2 hne

/-- Claim C1 counterexample: for the same label, the two different
ancestor chains containing one label with text a-greater-b, respectively
the two labels a and b, resolve to the very same cache key, refuting the
claim that differing chains always resolve to distinct entries. -/
theorem claim1_counterexample :
    (["a>b".toList] : List Str) ≠ ["a".toList, "b".toList] ∧
    cacheKey "x".toList ["a>b".toList] = cacheKey "x".toList ["a".toList, "b".toList] := by
  constructor
  · decide
  · decide

/-- Witness for the amended claim C1 at a concrete input. -/
theorem claim1_witness :
    cacheKey "x".toList ["a".toList] ≠ cacheKey "x".toList ["b".toList] :=
  claim1_cacheKey_chain_distinct "x".toList ["a".toList] ["b".toList]
    (by decide) (by decide) (by decide)

/-- Claim C5, confirmed. After a country-context change: no node deeper
than 1 remains, every remaining link joins two remaining nodes, all three
caches are empty, kept depth-1 nodes are collapsed, and the root keeps its
expanded flag. -/
theorem claim5_country_switch (s : AppState) (newCountry : Option Str) :
    (∀ n ∈ (handleCountryChange newCountry s).graph.nodes, n.depth ≤ 1) ∧
    (∀ l ∈ (handleCountryChange newCountry s).graph.links,
      (∃ n ∈ (handleCountryChange newCountry s).graph.nodes, n.id = l.source) ∧
      (∃ n ∈ (handleCountryChange newCountry s).graph.nodes, n.id = l.target)) ∧
    (handleCountryChange newCountry s).svc.memoryCache = [] ∧
    (handleCountryChange newCountry s).svc.severityCache = [] ∧
    (handleCountryChange newCountry s).svc.expandCache = [] ∧
    (∀ n ∈ (handleCountryChange newCountry s).graph.nodes, n.depth = 1 → n.isExpanded = false) ∧
    (∀ n ∈ (handleCountryChange newCountry s).graph.nodes, n.depth = 0 → n.isExpanded = true) := by
  refine ⟨?_, ?_, rfl, rfl, rfl, ?_, ?_⟩
  · intro n hn
    simp only [handleCountryChange, List.mem_map, List.mem_filter] at hn
    obtain ⟨m, ⟨_, hd⟩, rfl⟩ := hn
    simpa using of_decide_eq_true hd
  · intro l hl
    simp only [handleCountryChange, List.mem_filter, Bool.and_eq_true] at hl
    obtain ⟨_, hs, ht⟩ := hl
    constructor
    · have hs2 := of_decide_eq_true hs
      simp only [List.mem_map] at hs2
      obtain ⟨m, hm, hid⟩ := hs2
      refine ⟨{ m with isExpanded := decide (m.depth = 0) }, ?_, hid⟩
      simp only [handleCountryChange, List.mem_map]
      exact ⟨m, hm, rfl⟩
    · have ht2 := of_decide_eq_true ht
      simp only [List.mem_map] at ht2
      obtain ⟨m, hm, hid⟩ := ht2
      refine ⟨{ m with isExpanded := decide (m.depth = 0) }, ?_, hid⟩
      simp only [handleCountryChange, List.mem_map]
      exact ⟨m, hm, rfl⟩
  · intro n hn hd
    simp only [handleCountryChange, List.mem_map, List.mem_filter] at hn
    obtain ⟨m, ⟨_, _⟩, rfl⟩ := hn
    simp only at hd
    simp [hd]
  · intro n hn hd
    simp only [handleCountryChange, List.mem_map, List.mem_filter] at hn
    obtain ⟨m, ⟨_, _⟩, rfl⟩ := hn
    simp only at hd
    simp [hd]

/-- A small concrete application state used by witnesses: a root, one
expanded primary effect, one depth-2 consequence, and one expansion-cache
entry. -/
def sampleDeepState : AppState :=
  { graph :=
      { nodes := [
          { id := "root".toList, label := "r".toList, parentId := none, depth := 0,
            isExpanded := true, nodeType := NodeType.root },
          { id := "a".toList, label := "A".toList, parentId := some "root".toList,
            depth := 1, isExpanded := true, nodeType := NodeType.primary_effect },
          { id := "b".toList, label := "B".toList, parentId := some "a".toList,
            depth := 2, isExpanded := false, nodeType := NodeType.consequence }],
        links := [{ source := "root".toList, target := "a".toList },
                  { source := "a".toList, target := "b".toList }] },
    svc := { memoryCache := [], severityCache := [],
             expandCache := [("k".toList, { consequences := [], responses := [] })],
             genCalls := 0 },
    selectedCountry := none }

/-- Witness for claim C5: on the concrete sample state, the kept primary
effect is a member of the pruned store with its flag reset, and the
expansion cache reports empty. -/
theorem claim5_witness :
    ({ id := "a".toList, label := "A".toList, parentId := some "root".toList,
       depth := 1, isExpanded := false, nodeType := NodeType.primary_effect } ∈
        (handleCountryChange (some "fr".toList) sampleDeepState).graph.nodes) ∧
    ({ id := "a".toList, label := "A".toList, parentId := some "root".toList,
       depth := 1, isExpanded := false, nodeType := NodeType.primary_effect } : GraphNode).depth
        = 1 ∧
    ({ id := "a".toList, label := "A".toList, parentId := some "root".toList,
       depth := 1, isExpanded := false, nodeType := NodeType.primary_effect } : GraphNode).isExpanded
        = false ∧
    (handleCountryChange (some "fr".toList) sampleDeepState).svc.expandCache = [] :=
  ⟨by decide, by decide,
   (claim5_country_switch sampleDeepState (some "fr".toList)).2.2.2.2.2.1 _ (by decide) (by decide),
   (claim5_country_switch sampleDeepState (some "fr".toList)).2.2.2.2.1⟩

/-- Claim C7, confirmed. A cache hit short-circuits generation in all
three services: when the derived key is present, expandNode, getNodeMemory
and getSeverityScores return the cached value with the state (including
the generation counter) unchanged. Moreover one expandNode call raises the
generation counter by at most one, and after a successful call a repeat
call with the same arguments is a pure hit — so there is at most one fresh
generation per key. -/
theorem claim7_cache_hit_short_circuit (o o2 : GenOracle) (st : SvcState)
    (nodeLabel : Str) (parentChain : List Str) (country : Option Str) :
    (∀ r, lookupA st.expandCache (cacheKey nodeLabel parentChain) = some r →
      expandNode o st nodeLabel parentChain country = (Except.ok r, st)) ∧
    (∀ v, lookupA st.memoryCache nodeLabel = some v →
      getNodeMemory o st nodeLabel parentChain country = (Except.ok v, st)) ∧
    (∀ v, lookupA st.severityCache nodeLabel = some v →
      getSeverityScores o st nodeLabel parentChain country = (Except.ok v, st)) ∧
    ((expandNode o st nodeLabel parentChain country).2.genCalls ≤ st.genCalls + 1) ∧
    (∀ r, (expandNode o st nodeLabel parentChain country).1 = Except.ok r →
      expandNode o2 (expandNode o st nodeLabel parentChain country).2
          nodeLabel parentChain country
        = (Except.ok r, (expandNode o st nodeLabel parentChain country).2)) := by
  refine ⟨?_, ?_, ?_, ?_, ?_⟩
  · intro r h
    simp only [expandNode, h]
  · intro v h
    simp only [getNodeMemory, h]
  · intro v h
    simp only [getSeverityScores, h]
  · cases hl : lookupA st.expandCache (cacheKey nodeLabel parentChain) with
    | some r => simp [expandNode, hl]
    | none =>
      cases hg : generateWithRetries (o.expandGen nodeLabel parentChain country) 3 with
      | error e => simp [expandNode, hl, hg]
      | ok r => simp [expandNode, hl, hg]
  · intro r h
    cases hl : lookupA st.expandCache (cacheKey nodeLabel parentChain) with
    | some r0 =>
      have h1 : expandNode o st nodeLabel parentChain country = (Except.ok r0, st) := by
        simp only [expandNode, hl]
      rw [h1] at h ⊢
      have : r0 = r := by simpa using h
      subst this
      simp only [expandNode, hl]
    | none =>
      cases hg : generateWithRetries (o.expandGen nodeLabel parentChain country) 3 with
      | error e =>
        exfalso
        have h1 : (expandNode o st nodeLabel parentChain country).1 = Except.error e := by
          simp only [expandNode, hl, hg]
        rw [h1] at h
        exact Except.noConfusion h
      | ok r0 =>
        have h1 : expandNode o st nodeLabel parentChain country =
            (Except.ok r0,
             { st with genCalls := st.genCalls + 1,
                       expandCache := setA st.expandCache (cacheKey nodeLabel parentChain) r0 }) := by
          simp only [expandNode, hl, hg]
        rw [h1] at h ⊢
        have : r0 = r := by simpa using h
        subst this
        have hl2 : lookupA (setA st.expandCache (cacheKey nodeLabel parentChain) r0)
            (cacheKey nodeLabel parentChain) = some r0 :=
          lookupA_setA_self _ _ _
        simp only [expandNode, hl2]

/-- Witness for claim C7: on a concrete populated cache, the hit conjunct
and the counter bound evaluate as stated. -/
theorem claim7_witness :
    (lookupA [("m".toList, ({ consequences := ["c".toList], responses := [] } : ExpandResult))]
        (cacheKey "m".toList []) =
      some { consequences := ["c".toList], responses := [] }) ∧
    expandNode
        { expandGen := fun _ _ _ _ => Except.error (),
          memoryGen := fun _ _ _ => Except.error (),
          severityGen := fun _ _ _ => Except.error () }
        { memoryCache := [], severityCache := [],
          expandCache := [("m".toList, { consequences := ["c".toList], responses := [] })],
          genCalls := 0 }
        "m".toList [] none =
      (Except.ok { consequences := ["c".toList], responses := [] },
       { memoryCache := [], severityCache := [],
         expandCache := [("m".toList, { consequences := ["c".toList], responses := [] })],
         genCalls := 0 }) :=
  ⟨by decide,
   (claim7_cache_hit_short_circuit
      { expandGen := fun _ _ _ _ => Except.error (),
        memoryGen := fun _ _ _ => Except.error (),
        severityGen := fun _ _ _ => Except.error () }
      { expandGen := fun _ _ _ _ => Except.error (),
        memoryGen := fun _ _ _ => Except.error (),
        severityGen := fun _ _ _ => Except.error () }
      { memoryCache := [], severityCache := [],
        expandCache := [("m".toList, { consequences := ["c".toList], responses := [] })],
        genCalls := 0 }
      "m".toList [] none).1 _ (by decide)⟩

/-- Claim C8, confirmed. The narrative and severity caches key off the
node label alone: both services are literally independent of the chain
argument, and an entry populated by a call under one chain and country is
hit verbatim by a later call with any other chain and country and invokes
no generation (the repeat call leaves the state, including the generation
counter, unchanged). The expansion cache, by contrast, distinguishes
chains: for separator-free differing chains the derived keys differ and an
expansion under one chain leaves the other chain's entry untouched. -/
theorem claim8_label_keyed_caches (o o2 : GenOracle) (st : SvcState) (nodeLabel : Str)
    (ch1 ch2 : List Str) (c1 c2 : Option Str) :
    (getNodeMemory o st nodeLabel ch1 c1 = getNodeMemory o st nodeLabel ch2 c1) ∧
    (getSeverityScores o st nodeLabel ch1 c1 = getSeverityScores o st nodeLabel ch2 c1) ∧
    (∀ v, (getNodeMemory o st nodeLabel ch1 c1).1 = Except.ok v →
      getNodeMemory o2 (getNodeMemory o st nodeLabel ch1 c1).2 nodeLabel ch2 c2 =
        (Except.ok v, (getNodeMemory o st nodeLabel ch1 c1).2)) ∧
    (∀ v, (getSeverityScores o st nodeLabel ch1 c1).1 = Except.ok v →
      getSeverityScores o2 (getSeverityScores o st nodeLabel ch1 c1).2 nodeLabel ch2 c2 =
        (Except.ok v, (getSeverityScores o st nodeLabel ch1 c1).2)) ∧
    ((∀ s ∈ ch1, '>' ∉ s) → (∀ s ∈ ch2, '>' ∉ s) → ch1 ≠ ch2 →
      cacheKey nodeLabel ch1 ≠ cacheKey nodeLabel ch2) ∧
    ((∀ s ∈ ch1, '>' ∉ s) → (∀ s ∈ ch2, '>' ∉ s) → ch1 ≠ ch2 →
      lookupA (expandNode o st nodeLabel ch1 c1).2.expandCache (cacheKey nodeLabel ch2) =
        lookupA st.expandCache (cacheKey nodeLabel ch2)) := by
  refine ⟨rfl, rfl, ?_, ?_, ?_, ?_⟩
  · intro v h
    cases hl : lookupA st.memoryCache nodeLabel with
    | some v0 =>
      have h1 : getNodeMemory o st nodeLabel ch1 c1 = (Except.ok v0, st) := by
        simp only [getNodeMemory, hl]
      rw [h1] at h ⊢
      have : v0 = v := by simpa using h
      subst this
      simp only [getNodeMemory, hl]
    | none =>
      cases hg : generateWithRetries (o.memoryGen nodeLabel c1) 3 with
      | error e =>
        exfalso
        have h1 : (getNodeMemory o st nodeLabel ch1 c1).1 = Except.error e := by
          simp only [getNodeMemory, hl, hg]
        rw [h1] at h
        exact Except.noConfusion h
      | ok v0 =>
        have h1 : getNodeMemory o st nodeLabel ch1 c1 =
            (Except.ok v0,
             { st with genCalls := st.genCalls + 1,
                       memoryCache := setA st.memoryCache nodeLabel v0 }) := by
          simp only [getNodeMemory, hl, hg]
        rw [h1] at h ⊢
        have : v0 = v := by simpa using h
        subst this
        have hl2 : lookupA (setA st.memoryCache nodeLabel v0) nodeLabel = some v0 :=
          lookupA_setA_self _ _ _
        simp only [getNodeMemory, hl2]
  · intro v h
    cases hl : lookupA st.severityCache nodeLabel with
    | some v0 =>
      have h1 : getSeverityScores o st nodeLabel ch1 c1 = (Except.ok v0, st) := by
        simp only [getSeverityScores, hl]
      rw [h1] at h ⊢
      have : v0 = v := by simpa using h
      subst this
      simp only [getSeverityScores, hl]
    | none =>
      cases hg : generateWithRetries (o.severityGen nodeLabel c1) 3 with
      | error e =>
        exfalso
        have h1 : (getSeverityScores o st nodeLabel ch1 c1).1 = Except.error e := by
          simp only [getSeverityScores, hl, hg]
        rw [h1] at h
        exact Except.noConfusion h
      | ok v0 =>
        have h1 : getSeverityScores o st nodeLabel ch1 c1 =
            (Except.ok v0,
             { st with genCalls := st.genCalls + 1,
                       severityCache := setA st.severityCache nodeLabel v0 }) := by
          simp only [getSeverityScores, hl, hg]
        rw [h1] at h ⊢
        have : v0 = v := by simpa using h
        subst this
        have hl2 : lookupA (setA st.severityCache nodeLabel v0) nodeLabel = some v0 :=
          lookupA_setA_self _ _ _
        simp only [getSeverityScores, hl2]
  · intro hf1 hf2 hne
    exact cacheKey_chain_inj nodeLabel ch1 ch2 hf1 hf2 hne
  · intro hf1 hf2 hne
    cases hl : lookupA st.expandCache (cacheKey nodeLabel ch1) with
    | some r => simp only [expandNode, hl]
    | none =>
      cases hg : generateWithRetries (o.expandGen nodeLabel ch1 c1) 3 with
      | error e => simp only [expandNode, hl, hg]
      | ok r =>
        simp only [expandNode, hl, hg]
        exact lookupA_setA_other _ _ _ _
          (fun h => cacheKey_chain_inj nodeLabel ch1 ch2 hf1 hf2 hne h.symm)

/-- Witness for claim C8 at concrete inputs: a memory entry populated
under one chain is hit under another chain and country, and a concrete
pair of differing separator-free chains gets distinct expansion keys. -/
theorem claim8_witness :
    ((getNodeMemory
        { expandGen := fun _ _ _ _ => Except.error (),
          memoryGen := fun _ _ attempt =>
            if attempt = 0 then
              Except.ok { context := "ctx".toList, reflections := [], affectedEntities := [] }
            else Except.error (),
          severityGen := fun _ _ _ => Except.error () }
        { memoryCache := [], severityCache := [], expandCache := [], genCalls := 0 }
        "m".toList ["p".toList] none).1 =
      Except.ok { context := "ctx".toList, reflections := [], affectedEntities := [] }) ∧
    (getNodeMemory
        { expandGen := fun _ _ _ _ => Except.error (),
          memoryGen := fun _ _ _ => Except.error (),
          severityGen := fun _ _ _ => Except.error () }
        (getNodeMemory
          { expandGen := fun _ _ _ _ => Except.error (),
            memoryGen := fun _ _ attempt =>
              if attempt = 0 then
                Except.ok { context := "ctx".toList, reflections := [], affectedEntities := [] }
              else Except.error (),
            severityGen := fun _ _ _ => Except.error () }
          { memoryCache := [], severityCache := [], expandCache := [], genCalls := 0 }
          "m".toList ["p".toList] none).2
        "m".toList ["q".toList] (some "fr".toList) =
      (Except.ok { context := "ctx".toList, reflections := [], affectedEntities := [] },
       (getNodeMemory
          { expandGen := fun _ _ _ _ => Except.error (),
            memoryGen := fun _ _ attempt =>
              if attempt = 0 then
                Except.ok { context := "ctx".toList, reflections := [], affectedEntities := [] }
              else Except.error (),
            severityGen := fun _ _ _ => Except.error () }
          { memoryCache := [], severityCache := [], expandCache := [], genCalls := 0 }
          "m".toList ["p".toList] none).2)) :=
  ⟨by rfl,
   (claim8_label_keyed_caches
      { expandGen := fun _ _ _ _ => Except.error (),
        memoryGen := fun _ _ attempt =>
          if attempt = 0 then
            Except.ok { context := "ctx".toList, reflections := [], affectedEntities := [] }
          else Except.error (),
        severityGen := fun _ _ _ => Except.error () }
      { expandGen := fun _ _ _ _ => Except.error (),
        memoryGen := fun _ _ _ => Except.error (),
        severityGen := fun _ _ _ => Except.error () }
      { memoryCache := [], severityCache := [], expandCache := [], genCalls := 0 }
      "m".toList ["p".toList] ["q".toList] none (some "fr".toList)).2.2.1 _ (by rfl)⟩

/-! ### Claim C6 -/

/-- Claim C6, confirmed. If the expansion generation step misses the cache
and every attempt fails, then the retry loop exhausts its three capped
attempts and produces a terminal error, the expandNode service surfaces
that error to its caller without touching the expansion cache, and the
coordinator handleExpandNode leaves the graph exactly as it was: no child
node or link is added and no isExpanded flag is set — the operation is
all-or-nothing. (The increasing backoff delays between attempts are
real-time behaviour outside the model.) -/
theorem claim6_expand_failure_atomic (o : GenOracle) (freshIds : List Str)
    (node : GraphNode) (s : AppState)
    (hfail : ∀ attempt, o.expandGen node.label (buildParentChain s.graph node.id)
      s.selectedCountry attempt = Except.error ())
    (hmiss : lookupA s.svc.expandCache
      (cacheKey node.label (buildParentChain s.graph node.id)) = none) :
    generateWithRetries
        (o.expandGen node.label (buildParentChain s.graph node.id) s.selectedCountry) 3
      = Except.error () ∧
    (expandNode o s.svc node.label (buildParentChain s.graph node.id) s.selectedCountry).1
      = Except.error () ∧
    (expandNode o s.svc node.label (buildParentChain s.graph node.id) s.selectedCountry).2.expandCache
      = s.svc.expandCache ∧
    (handleExpandNode o freshIds node s).graph = s.graph := by
  have hgwr : generateWithRetries
      (o.expandGen node.label (buildParentChain s.graph node.id) s.selectedCountry) 3
      = Except.error () := by
    simp [generateWithRetries, gwrAux, hfail 0, hfail 1, hfail 2]
  have hsvc : expandNode o s.svc node.label (buildParentChain s.graph node.id) s.selectedCountry
      = (Except.error (), { s.svc with genCalls := s.svc.genCalls + 1 }) := by
    simp only [expandNode, hmiss, hgwr]
  refine ⟨hgwr, by rw [hsvc], by rw [hsvc], ?_⟩
  by_cases hguard : node.isExpanded = true ∨ 50 ≤ node.depth
  · simp [handleExpandNode, hguard]
  · simp only [handleExpandNode, if_neg hguard, hsvc]

/-- An always-failing generator oracle, used by witnesses. -/
def failingOracle : GenOracle :=
  { expandGen := fun _ _ _ _ => Except.error (),
    memoryGen := fun _ _ _ => Except.error (),
    severityGen := fun _ _ _ => Except.error () }

/-- A two-node application state (root plus one collapsed primary effect)
with empty caches, used by witnesses. -/
def sampleSmallState : AppState :=
  { graph :=
      { nodes := [
          { id := "root".toList, label := "r".toList, parentId := none, depth := 0,
            isExpanded := true, nodeType := NodeType.root },
          { id := "a".toList, label := "A".toList, parentId := some "root".toList,
            depth := 1, isExpanded := false, nodeType := NodeType.primary_effect }],
        links := [{ source := "root".toList, target := "a".toList }] },
    svc := { memoryCache := [], severityCache := [], expandCache := [], genCalls := 0 },
    selectedCountry := none }

/-- The collapsed primary-effect node of the sample state, as handed to
the handlers by the UI. -/
def sampleNodeA : GraphNode :=
  { id := "a".toList, label := "A".toList, parentId := some "root".toList,
    depth := 1, isExpanded := false, nodeType := NodeType.primary_effect }

/-- Witness for claim C6: at the concrete sample state under the failing
oracle, the hypotheses hold and the graph survives an expand untouched. -/
theorem claim6_witness :
    (∀ attempt, failingOracle.expandGen sampleNodeA.label
        (buildParentChain sampleSmallState.graph sampleNodeA.id)
        sampleSmallState.selectedCountry attempt = Except.error ()) ∧
    (lookupA sampleSmallState.svc.expandCache
      (cacheKey sampleNodeA.label
        (buildParentChain sampleSmallState.graph sampleNodeA.id)) = none) ∧
    (handleExpandNode failingOracle [] sampleNodeA sampleSmallState).graph
      = sampleSmallState.graph :=
  ⟨fun _ => rfl, by decide,
   (claim6_expand_failure_atomic failingOracle [] sampleNodeA sampleSmallState
      (fun _ => rfl) (by decide)).2.2.2⟩

/-! ### Helper facts about child construction, shared by C3 and C9 -/

theorem mkNodes_spec (parent : GraphNode) (nt : NodeType) :
    ∀ (labs ids : List Str) (n : GraphNode), n ∈ mkNodes parent nt labs ids →
      n.id ∈ ids ∧ n.parentId = some parent.id ∧ n.depth = parent.depth + 1 ∧
      n.isExpanded = false := by
  intro labs
  induction labs with
  | nil => intro ids n h; simp [mkNodes] at h
  | cons lab labs2 ih =>
    intro ids n h
    cases ids with
    | nil => simp [mkNodes] at h
    | cons i ids2 =>
      simp only [mkNodes, List.mem_cons] at h
      rcases h with rfl | h
      · exact ⟨List.mem_cons_self _ _, rfl, rfl, rfl⟩
      · obtain ⟨h1, h2, h3, h4⟩ := ih ids2 n h
        exact ⟨List.mem_cons_of_mem _ h1, h2, h3, h4⟩

theorem mkNodes_ids_sublist (parent : GraphNode) (nt : NodeType) :
    ∀ (labs ids : List Str), ((mkNodes parent nt labs ids).map (fun n => n.id)).Sublist ids := by
  intro labs
  induction labs with
  | nil => intro ids; simp [mkNodes]
  | cons lab labs2 ih =>
    intro ids
    cases ids with
    | nil => simp [mkNodes]
    | cons i ids2 =>
      simp only [mkNodes, List.map_cons]
      exact List.Sublist.cons₂ i (ih ids2)

/-- Any node of the attachChildren result carrying the parent's id is the
parent's updated copy, hence marked expanded, provided the fresh ids avoid
the parent's id. -/
theorem attach_flag (g : GraphData) (node : GraphNode) (r : ExpandResult) (ids : List Str)
    (hfresh : ∀ i ∈ ids, i ≠ node.id) :
    ∀ n2 ∈ (attachChildren g node r ids).nodes, n2.id = node.id → n2.isExpanded = true := by
  intro n2 hmem hid
  simp only [attachChildren, List.mem_append] at hmem
  rcases hmem with hold | hnew
  · obtain ⟨m, hm, hn2⟩ := List.mem_map.mp hold
    by_cases hcase : m.id = node.id
    · rw [← hn2, if_pos hcase]
    · rw [← hn2, if_neg hcase] at hid ⊢
      exact absurd hid hcase
  · exfalso
    rcases hnew with hc | hr
    · have hin := (mkNodes_spec node NodeType.consequence _ _ n2 hc).1
      exact hfresh n2.id (List.take_subset _ _ hin) hid
    · have hin := (mkNodes_spec node NodeType.response _ _ n2 hr).1
      exact hfresh n2.id (List.drop_subset _ _ hin) hid

/-! ### Claim C3 -/

/-- Claim C3, amended. The guard of handleExpandNode is only an
isExpanded check on the node snapshot it is handed: a second expand call
issued AFTER the first completed — with the node's updated state, whose
isExpanded flag the first call set — is a no-op performing no generation,
so the sequential double-expand performs at most one external generation
call. (A second call issued while the first is still pending is NOT a
no-op; see the counterexample, which exhibits a second generation.) -/
theorem claim3_expand_idempotent_sequential (o : GenOracle) (freshIds : List Str)
    (node : GraphNode) (s : AppState)
    (hfresh : ∀ i ∈ freshIds, i ≠ node.id) :
    (node.isExpanded = true → handleExpandNode o freshIds node s = s) ∧
    ((handleExpandNode o freshIds node s).svc.genCalls ≤ s.svc.genCalls + 1) ∧
    (∀ n2 ∈ (handleExpandNode o freshIds node s).graph.nodes, n2.id = node.id →
      n2.isExpanded = true ∨ (handleExpandNode o freshIds node s).graph = s.graph) := by
  refine ⟨?_, ?_, ?_⟩
  · intro hexp
    have : node.isExpanded = true ∨ 50 ≤ node.depth := Or.inl hexp
    simp [handleExpandNode, this]
  · by_cases hguard : node.isExpanded = true ∨ 50 ≤ node.depth
    · simp [handleExpandNode, hguard]
    · simp only [handleExpandNode, if_neg hguard]
      cases hl : lookupA s.svc.expandCache
          (cacheKey node.label (buildParentChain s.graph node.id)) with
      | some r => simp [expandNode, hl]
      | none =>
        cases hg : generateWithRetries
            (o.expandGen node.label (buildParentChain s.graph node.id) s.selectedCountry) 3 with
        | error e => simp [expandNode, hl, hg]
        | ok r => simp [expandNode, hl, hg]
  · by_cases hguard : node.isExpanded = true ∨ 50 ≤ node.depth
    · intro n2 _ _
      right
      simp [handleExpandNode, hguard]
    · intro n2 hmem hid
      simp only [handleExpandNode, if_neg hguard] at hmem
      cases hl : lookupA s.svc.expandCache
          (cacheKey node.label (buildParentChain s.graph node.id)) with
      | some r =>
        have hsvc : expandNode o s.svc node.label (buildParentChain s.graph node.id)
            s.selectedCountry = (Except.ok r, s.svc) := by
          simp only [expandNode, hl]
        rw [hsvc] at hmem
        left
        exact attach_flag s.graph node r freshIds hfresh n2 hmem hid
      | none =>
        cases hg : generateWithRetries
            (o.expandGen node.label (buildParentChain s.graph node.id) s.selectedCountry) 3 with
        | error e =>
          have hsvc : expandNode o s.svc node.label (buildParentChain s.graph node.id)
              s.selectedCountry = (Except.error e,
                { s.svc with genCalls := s.svc.genCalls + 1 }) := by
            simp only [expandNode, hl, hg]
          rw [hsvc] at hmem
          right
          simp only [handleExpandNode, if_neg hguard, hsvc]
        | ok r =>
          have hsvc : expandNode o s.svc node.label (buildParentChain s.graph node.id)
              s.selectedCountry = (Except.ok r,
                { s.svc with
                    genCalls := s.svc.genCalls + 1
                    expandCache := setA s.svc.expandCache
                      (cacheKey node.label (buildParentChain s.graph node.id)) r }) := by
            simp only [expandNode, hl, hg]
          rw [hsvc] at hmem
          left
          exact attach_flag s.graph node r freshIds hfresh n2 hmem hid

/-- Claim C3 counterexample. Run the synchronous pre-suspension segment of
two expand calls for the SAME collapsed node back to back — exactly the
schedule of a second call issued while the first is still pending, since
the first call's commit only happens after its suspension point. The
second segment passes the guard (the store's flag is still false, and no
pending marker exists), misses the cache (the first call's result is not
yet stored), and starts a second external generation: two generation calls
for one node, and the second call is not a no-op. -/
theorem claim3_counterexample :
    (expandPhaseOne sampleNodeA sampleSmallState).1.svc.genCalls = 1 ∧
    (expandPhaseOne sampleNodeA
      (expandPhaseOne sampleNodeA sampleSmallState).1).1.svc.genCalls = 2 ∧
    (expandPhaseOne sampleNodeA
        (expandPhaseOne sampleNodeA sampleSmallState).1).2
      = PhaseOneOutcome.generating (cacheKey sampleNodeA.label ["A".toList])
          ["A".toList] ∧
    (expandPhaseOne sampleNodeA (expandPhaseOne sampleNodeA sampleSmallState).1).1
      ≠ (expandPhaseOne sampleNodeA sampleSmallState).1 := by
  refine ⟨by decide, by decide, by decide, by decide⟩

/-- Witness for the amended claim C3: at the concrete sample state, a node
whose snapshot is already expanded makes handleExpandNode a no-op. -/
theorem claim3_witness :
    (∀ i ∈ (["x".toList] : List Str), i ≠ sampleNodeA.id) ∧
    ({ sampleNodeA with isExpanded := true }.isExpanded = true) ∧
    handleExpandNode failingOracle ["x".toList] { sampleNodeA with isExpanded := true }
        sampleSmallState
      = sampleSmallState :=
  ⟨by decide, by decide,
   (claim3_expand_idempotent_sequential failingOracle ["x".toList]
      { sampleNodeA with isExpanded := true } sampleSmallState (by decide)).1 (by decide)⟩

/-! ### The structural invariant of the graph state -/

/-- The structural invariant maintained by the application: node ids are
unique (uuids plus the root sentinel) and nonempty, the root sentinel is
present as the one parentless node at depth 0, parent references resolve,
depth is the parent's depth plus one, and the link list is exactly the set
of (parentId, id) pairs of the nodes carrying a parent. -/
structure Inv (g : GraphData) : Prop where
  nodupIds : (g.nodes.map (fun n => n.id)).Nodup
  idsNonempty : ∀ n ∈ g.nodes, n.id ≠ []
  rootMem : ∃ r ∈ g.nodes, r.id = "root".toList ∧ r.parentId = none ∧ r.depth = 0
  parentlessRoot : ∀ n ∈ g.nodes, n.parentId = none → n.id = "root".toList
  parentPresent : ∀ n ∈ g.nodes, ∀ pid, n.parentId = some pid → ∃ p ∈ g.nodes, p.id = pid
  depthParent : ∀ n ∈ g.nodes, ∀ pid, n.parentId = some pid → ∀ p ∈ g.nodes, p.id = pid →
    n.depth = p.depth + 1
  linksIff : ∀ l : GraphLink, l ∈ g.links ↔
    ∃ n ∈ g.nodes, n.parentId = some l.source ∧ n.id = l.target

theorem find_self (nodes : List GraphNode) (hnd : (nodes.map (fun n => n.id)).Nodup) :
    ∀ n ∈ nodes, nodes.find? (fun m => m.id = n.id) = some n := by
  induction nodes with
  | nil => intro n h; simp at h
  | cons h t ih =>
    intro n hn
    rcases List.mem_cons.mp hn with rfl | hmem
    · simp [List.find?_cons]
    · by_cases hid : h.id = n.id
      · exfalso
        have : n.id ∈ t.map (fun m => m.id) := List.mem_map_of_mem _ hmem
        rw [List.map_cons, List.nodup_cons] at hnd
        exact hnd.1 (hid ▸ this)
      · rw [List.find?_cons, decide_eq_false hid]
        rw [List.map_cons, List.nodup_cons] at hnd
        exact ih hnd.2 n hmem

theorem id_inj (nodes : List GraphNode) (hnd : (nodes.map (fun n => n.id)).Nodup)
    (n m : GraphNode) (hn : n ∈ nodes) (hm : m ∈ nodes) (h : n.id = m.id) : n = m := by
  have h1 := find_self nodes hnd n hn
  have h2 := find_self nodes hnd m hm
  rw [h] at h1
  rw [h1] at h2
  exact (Option.some.injEq _ _ ▸ h2)

theorem mem_le_foldrMax (l : List Nat) : ∀ x ∈ l, x ≤ l.foldr max 0 := by
  induction l with
  | nil => intro x h; simp at h
  | cons a t ih =>
    intro x h
    rcases List.mem_cons.mp h with rfl | hmem
    · exact Nat.le_max_left _ _
    · exact Nat.le_trans (ih x hmem) (Nat.le_max_right _ _)

theorem depth_le_maxDepth (nodes : List GraphNode) (n : GraphNode) (h : n ∈ nodes) :
    n.depth ≤ maxDepthOf nodes :=
  mem_le_foldrMax _ n.depth (List.mem_map_of_mem _ h)

/-! ### Behaviour of the ancestor-chain walk on invariant states -/

theorem chainStep_acc (nodes : List GraphNode) :
    ∀ (fuel : Nat) (currentId : Str) (acc : List Str),
      chainStep nodes fuel currentId acc = chainStep nodes fuel currentId [] ++ acc := by
  intro fuel
  induction fuel with
  | zero => intro currentId acc; simp [chainStep]
  | succ f ih =>
    intro currentId acc
    by_cases hid : currentId = []
    · simp [chainStep, hid]
    · rw [chainStep, chainStep, if_neg hid, if_neg hid]
      cases hf : nodes.find? (fun n => n.id = currentId) with
      | none => simp
      | some node =>
        by_cases hroot : currentId = "root".toList
        · simp [hroot]
        · simp only [if_neg hroot]
          rw [ih (node.parentId.getD []) (node.label :: acc),
              ih (node.parentId.getD []) [node.label], List.append_assoc]
          simp

theorem chain_main (g : GraphData) (hInv : Inv g) :
    ∀ d : Nat, ∀ n ∈ g.nodes, n.depth = d → ∀ f1 : Nat, d + 2 ≤ f1 →
      (chainStep g.nodes f1 n.id [] = chainStep g.nodes (d + 2) n.id []) ∧
      (chainStep g.nodes f1 n.id []).length = d ∧
      (0 < d → ∀ pid, n.parentId = some pid →
        chainStep g.nodes f1 n.id [] = chainStep g.nodes (f1 - 1) pid [] ++ [n.label]) := by
  intro d
  induction d using Nat.strong_induction_on with
  | _ d ih =>
    intro n hn hd f1 hf1
    obtain ⟨f, rfl⟩ : ∃ f, f1 = f + 1 := ⟨f1 - 1, by omega⟩
    have hne : n.id ≠ [] := hInv.idsNonempty n hn
    have hfind := find_self g.nodes hInv.nodupIds n hn
    by_cases hroot : n.id = "root".toList
    · obtain ⟨r, hr, hrid, hrpar, hrd⟩ := hInv.rootMem
      have hnr : n = r := id_inj g.nodes hInv.nodupIds n r hn hr (hroot.trans hrid.symm)
      have hd0 : d = 0 := by rw [← hd, hnr, hrd]
      subst hd0
      have hstep : ∀ f2 : Nat, chainStep g.nodes (f2 + 1) n.id [] = [] := by
        intro f2
        rw [chainStep, if_neg hne, hfind]
        show (if n.id = "root".toList then []
          else chainStep g.nodes f2 (n.parentId.getD []) [n.label]) = []
        rw [if_pos hroot]
      refine ⟨?_, ?_, ?_⟩
      · rw [hstep f]
        show ([] : List Str) = chainStep g.nodes (1 + 1) n.id []
        rw [hstep 1]
      · rw [hstep f]; rfl
      · intro h0; exact absurd h0 (by omega)
    · cases hpar : n.parentId with
      | none => exact absurd (hInv.parentlessRoot n hn hpar) hroot
      | some pid =>
        obtain ⟨p, hp, hpid⟩ := hInv.parentPresent n hn pid hpar
        have hdep : n.depth = p.depth + 1 := hInv.depthParent n hn pid hpar p hp hpid
        have hdpos : 0 < d := by omega
        have hpd : p.depth = d - 1 := by omega
        have hstep : ∀ f2 : Nat, chainStep g.nodes (f2 + 1) n.id [] =
            chainStep g.nodes f2 pid [] ++ [n.label] := by
          intro f2
          rw [chainStep, if_neg hne, hfind]
          show (if n.id = "root".toList then []
            else chainStep g.nodes f2 (n.parentId.getD []) [n.label]) =
              chainStep g.nodes f2 pid [] ++ [n.label]
          rw [if_neg hroot, hpar]
          show chainStep g.nodes f2 pid [n.label] = chainStep g.nodes f2 pid [] ++ [n.label]
          exact chainStep_acc g.nodes f2 pid [n.label]
        have ihp := ih (d - 1) (by omega) p hp hpd
        have hfuel1 : d - 1 + 2 ≤ f := by omega
        have hfuel2 : d - 1 + 2 ≤ d + 1 := by omega
        have e1 : chainStep g.nodes f p.id [] = chainStep g.nodes (d - 1 + 2) p.id [] :=
          (ihp f hfuel1).1
        have e2 : chainStep g.nodes (d + 1) p.id [] = chainStep g.nodes (d - 1 + 2) p.id [] :=
          (ihp (d + 1) hfuel2).1
        have elen : (chainStep g.nodes f p.id []).length = d - 1 := (ihp f hfuel1).2.1
        refine ⟨?_, ?_, ?_⟩
        · rw [hstep f]
          show _ = chainStep g.nodes ((d + 1) + 1) n.id []
          rw [hstep (d + 1), ← hpid, e1, e2]
        · rw [hstep f, List.length_append, ← hpid, elen]
          simp
          omega
        · intro _ pid2 hpid3
          have hpe : pid2 = pid := by
            injection hpid3 with h
            exact h.symm
          subst hpe
          show chainStep g.nodes (f + 1) n.id [] = chainStep g.nodes (f + 1 - 1) pid2 [] ++ [n.label]
          have hff : f + 1 - 1 = f := by omega
          rw [hff]
          exact hstep f

/-! ### Claim C2 -/

/-- A one-node graph whose only node has a dangling parent reference, used
by the C2 counterexample. -/
def orphanGraph : GraphData :=
  { nodes := [{ id := "b".toList, label := "B".toList, parentId := some "ghost".toList,
                depth := 2, isExpanded := false, nodeType := NodeType.consequence }],
    links := [] }

/-- Claim C2, amended. On every invariant-satisfying state, for every node
N present in the store the computed chain has length exactly N.depth and
is the oldest-first label path that ENDS WITH N's own label (the walk adds
the starting node's label before moving to its parent, and stops before
adding the root's), expressed by the recursion: the chain of N is the
chain of its parent with N's own label appended; and the walk returns
empty when the requested node id is absent from the store. The original
claim's "excludes N's own label" is refuted by the counterexample, as is
"returns empty when an ancestor is missing" — a missing ancestor yields
the truncated chain collected so far rather than the empty list. -/
theorem claim2_parentChain (g : GraphData) (hInv : Inv g) :
    (∀ n ∈ g.nodes, (buildParentChain g n.id).length = n.depth ∧
      (0 < n.depth → ∀ pid, n.parentId = some pid →
        buildParentChain g n.id = buildParentChain g pid ++ [n.label])) ∧
    (∀ nodeId : Str, (∀ n ∈ g.nodes, n.id ≠ nodeId) → buildParentChain g nodeId = []) := by
  constructor
  · intro n hn
    have hdle : n.depth ≤ maxDepthOf g.nodes := depth_le_maxDepth g.nodes n hn
    have hmain := chain_main g hInv n.depth n hn rfl (maxDepthOf g.nodes + 2) (by omega)
    refine ⟨hmain.2.1, ?_⟩
    intro hdpos pid hpid
    obtain ⟨p, hp, hpide⟩ := hInv.parentPresent n hn pid hpid
    have hdep : n.depth = p.depth + 1 := hInv.depthParent n hn pid hpid p hp hpide
    have hrec := hmain.2.2 hdpos pid hpid
    have hMD : maxDepthOf g.nodes + 2 - 1 = maxDepthOf g.nodes + 1 := by omega
    rw [hMD] at hrec
    have hpmain1 := chain_main g hInv p.depth p hp rfl (maxDepthOf g.nodes + 1) (by omega)
    have hpmain2 := chain_main g hInv p.depth p hp rfl (maxDepthOf g.nodes + 2) (by omega)
    unfold buildParentChain
    rw [hrec, ← hpide, hpmain1.1, hpmain2.1]
  · intro nodeId hmiss
    unfold buildParentChain
    rw [chainStep]
    by_cases hid : nodeId = []
    · rw [if_pos hid]
    · rw [if_neg hid]
      have hnone : g.nodes.find? (fun m => m.id = nodeId) = none := by
        rw [List.find?_eq_none]
        intro m hm hdec
        exact hmiss m hm (of_decide_eq_true hdec)
      rw [hnone]

/-- Claim C2 counterexample. In the two-node sample graph (root plus one
primary effect labelled A at depth 1) the chain of the primary effect is
exactly the one-element list holding the node's OWN label — so "excludes
N's own label" fails; and in the orphan graph, whose only node has a
missing ancestor, the walk returns that node's label rather than the
empty list — so "returns empty if any ancestor is missing" fails too. -/
theorem claim2_counterexample :
    buildParentChain sampleSmallState.graph sampleNodeA.id = [sampleNodeA.label] ∧
    sampleNodeA.label ∈ buildParentChain sampleSmallState.graph sampleNodeA.id ∧
    buildParentChain orphanGraph "b".toList = ["B".toList] := by
  refine ⟨by decide, by decide, by decide⟩

/-- The two-node sample state satisfies the structural invariant. -/
theorem sampleInv : Inv sampleSmallState.graph := by
  refine ⟨by decide, by decide, ?_, by decide, ?_, ?_, ?_⟩
  · exact ⟨{ id := "root".toList, label := "r".toList, parentId := none, depth := 0,
               isExpanded := true, nodeType := NodeType.root }, by decide, by decide, rfl, rfl⟩
  · intro n hn pid hpid
    simp only [sampleSmallState] at hn
    simp only [List.mem_cons, List.not_mem_nil, or_false] at hn
    rcases hn with rfl | rfl
    · exact absurd hpid (by simp)
    · simp only at hpid
      injection hpid with h
      exact ⟨{ id := "root".toList, label := "r".toList, parentId := none, depth := 0,
               isExpanded := true, nodeType := NodeType.root }, by decide, h⟩
  · intro n hn pid hpid p hp hpe
    simp only [sampleSmallState] at hn hp
    simp only [List.mem_cons, List.not_mem_nil, or_false] at hn hp
    rcases hn with rfl | rfl
    · exact absurd hpid (by simp)
    · simp only at hpid
      injection hpid with h
      rcases hp with rfl | rfl
      · rfl
      · exfalso
        rw [← h] at hpe
        exact absurd hpe (by decide)
  · intro l
    constructor
    · intro hl
      simp only [sampleSmallState] at hl
      simp only [List.mem_cons, List.not_mem_nil, or_false] at hl
      subst hl
      exact ⟨{ id := "a".toList, label := "A".toList, parentId := some "root".toList,
               depth := 1, isExpanded := false, nodeType := NodeType.primary_effect },
        by decide, rfl, rfl⟩
    · rintro ⟨n, hn, hpar, hid⟩
      simp only [sampleSmallState] at hn
      simp only [List.mem_cons, List.not_mem_nil, or_false] at hn
      rcases hn with rfl | rfl
      · exact absurd hpar (by simp)
      · simp only at hpar hid
        injection hpar with h
        cases l with
        | mk src tgt =>
          simp only at h hid
          rw [← h, ← hid]
          simp [sampleSmallState]

/-- Witness for the amended claim C2: the sample state satisfies the
invariant, its primary effect is present, and its computed chain has
length equal to its depth. -/
theorem claim2_witness :
    Inv sampleSmallState.graph ∧ sampleNodeA ∈ sampleSmallState.graph.nodes ∧
    (buildParentChain sampleSmallState.graph sampleNodeA.id).length = sampleNodeA.depth :=
  ⟨sampleInv, by decide,
   ((claim2_parentChain sampleSmallState.graph sampleInv).1 sampleNodeA (by decide)).1⟩

/-! ### Claim C10: termination of the two graph walks -/

/-- Acyclicity of the parent relation, expressed as the existence of a
ranking that strictly decreases from every node to its parent id. On every
state reachable through the public operations the depth function is such a
ranking. -/
def AcyclicParents (nodes : List GraphNode) : Prop :=
  ∃ m : Str → Nat, ∀ n ∈ nodes, ∀ pid, n.parentId = some pid → m pid < m n.id

/-- Fuelled halting predicate of the ancestor walk: the walk reaches one
of its three stopping conditions within the given number of steps. -/
def chainHaltsB (nodes : List GraphNode) : Nat → Str → Bool
  | 0, _ => false
  | fuel + 1, currentId =>
    if currentId = [] then true
    else
      match nodes.find? (fun n => n.id = currentId) with
      | none => true
      | some node =>
        if currentId = "root".toList then true
        else chainHaltsB nodes fuel (node.parentId.getD [])

/-- Fuelled halting predicate of the descendant collection: every
recursive branch bottoms out within the given fuel. -/
def descHaltsB (nodes : List GraphNode) : Nat → Str → Bool
  | 0, _ => false
  | fuel + 1, nodeId =>
    (nodes.filter (fun n => decide (n.parentId = some nodeId))).all
      (fun c => descHaltsB nodes fuel c.id)

theorem chainHaltsB_succ_found (nodes : List GraphNode) (f : Nat) (currentId : Str)
    (node : GraphNode) (hne : ¬ currentId = [])
    (hf : nodes.find? (fun n => n.id = currentId) = some node) :
    chainHaltsB nodes (f + 1) currentId =
      (if currentId = "root".toList then true
       else chainHaltsB nodes f (node.parentId.getD [])) := by
  rw [chainHaltsB, if_neg hne, hf]

theorem chainHaltsB_succ_none (nodes : List GraphNode) (f : Nat) (currentId : Str)
    (hne : ¬ currentId = [])
    (hf : nodes.find? (fun n => n.id = currentId) = none) :
    chainHaltsB nodes (f + 1) currentId = true := by
  rw [chainHaltsB, if_neg hne, hf]

theorem chainStep_succ_found (nodes : List GraphNode) (f : Nat) (currentId : Str)
    (acc : List Str) (node : GraphNode) (hne : ¬ currentId = [])
    (hf : nodes.find? (fun n => n.id = currentId) = some node) :
    chainStep nodes (f + 1) currentId acc =
      (if currentId = "root".toList then acc
       else chainStep nodes f (node.parentId.getD []) (node.label :: acc)) := by
  rw [chainStep, if_neg hne, hf]

theorem chainStep_succ_none (nodes : List GraphNode) (f : Nat) (currentId : Str)
    (acc : List Str) (hne : ¬ currentId = [])
    (hf : nodes.find? (fun n => n.id = currentId) = none) :
    chainStep nodes (f + 1) currentId acc = acc := by
  rw [chainStep, if_neg hne, hf]

theorem chainHaltsB_mono (nodes : List GraphNode) :
    ∀ (f1 : Nat) (currentId : Str), chainHaltsB nodes f1 currentId = true →
      ∀ f2, f1 ≤ f2 → chainHaltsB nodes f2 currentId = true := by
  intro f1
  induction f1 with
  | zero => intro currentId h; exact absurd h (by simp [chainHaltsB])
  | succ f ih =>
    intro currentId h f2 hle
    obtain ⟨f2p, rfl⟩ : ∃ f2p, f2 = f2p + 1 := ⟨f2 - 1, by omega⟩
    by_cases hid : currentId = []
    · rw [chainHaltsB, if_pos hid]
    · cases hf : nodes.find? (fun n => n.id = currentId) with
      | none => rw [chainHaltsB_succ_none nodes f2p currentId hid hf]
      | some node =>
        rw [chainHaltsB_succ_found nodes f currentId node hid hf] at h
        rw [chainHaltsB_succ_found nodes f2p currentId node hid hf]
        by_cases hroot : currentId = "root".toList
        · rw [if_pos hroot]
        · rw [if_neg hroot] at h ⊢
          exact ih _ h f2p (by omega)

theorem chainStep_halt_eq (nodes : List GraphNode) :
    ∀ (f1 : Nat) (currentId : Str) (acc : List Str),
      chainHaltsB nodes f1 currentId = true →
      ∀ f2, f1 ≤ f2 → chainStep nodes f2 currentId acc = chainStep nodes f1 currentId acc := by
  intro f1
  induction f1 with
  | zero => intro currentId acc h; exact absurd h (by simp [chainHaltsB])
  | succ f ih =>
    intro currentId acc h f2 hle
    obtain ⟨f2p, rfl⟩ : ∃ f2p, f2 = f2p + 1 := ⟨f2 - 1, by omega⟩
    by_cases hid : currentId = []
    · rw [chainStep, chainStep, if_pos hid, if_pos hid]
    · cases hf : nodes.find? (fun n => n.id = currentId) with
      | none =>
        rw [chainStep_succ_none nodes f2p currentId acc hid hf,
            chainStep_succ_none nodes f currentId acc hid hf]
      | some node =>
        rw [chainHaltsB_succ_found nodes f currentId node hid hf] at h
        rw [chainStep_succ_found nodes f2p currentId acc node hid hf,
            chainStep_succ_found nodes f currentId acc node hid hf]
        by_cases hroot : currentId = "root".toList
        · rw [if_pos hroot, if_pos hroot]
        · rw [if_neg hroot] at h ⊢
          rw [if_neg hroot]
          exact ih _ _ h f2p (by omega)

theorem rank_chainHalts (nodes : List GraphNode) (m : Str → Nat)
    (hm : ∀ n ∈ nodes, ∀ pid, n.parentId = some pid → m pid < m n.id) :
    ∀ (k : Nat) (currentId : Str), m currentId ≤ k →
      chainHaltsB nodes (k + 2) currentId = true := by
  intro k
  induction k using Nat.strong_induction_on with
  | _ k ih =>
    intro currentId hk
    by_cases hid : currentId = []
    · rw [chainHaltsB, if_pos hid]
    · cases hf : nodes.find? (fun n => n.id = currentId) with
      | none => rw [chainHaltsB_succ_none nodes (k + 1) currentId hid hf]
      | some node =>
        rw [chainHaltsB_succ_found nodes (k + 1) currentId node hid hf]
        by_cases hroot : currentId = "root".toList
        · rw [if_pos hroot]
        · rw [if_neg hroot]
          have hmem : node ∈ nodes := List.mem_of_find?_eq_some hf
          have hnid : node.id = currentId := by simpa using List.find?_some hf
          cases hpar : node.parentId with
          | none =>
            show chainHaltsB nodes (k + 1) ([] : Str) = true
            rw [chainHaltsB]
            rw [if_pos rfl]
          | some pid =>
            show chainHaltsB nodes (k + 1) (Option.getD (some pid) []) = true
            have hrank : m pid < m node.id := hm node hmem pid hpar
            rw [hnid] at hrank
            obtain ⟨kp, rfl⟩ : ∃ kp, k = kp + 1 := ⟨k - 1, by omega⟩
            exact ih kp (by omega) pid (by omega)

theorem descFuel_halt_eq (nodes : List GraphNode) :
    ∀ (f1 : Nat) (nodeId : Str), descHaltsB nodes f1 nodeId = true →
      ∀ f2, f1 ≤ f2 → descFuel nodes f2 nodeId = descFuel nodes f1 nodeId := by
  intro f1
  induction f1 with
  | zero => intro nodeId h; exact absurd h (by simp [descHaltsB])
  | succ f ih =>
    intro nodeId h f2 hle
    obtain ⟨f2p, rfl⟩ : ∃ f2p, f2 = f2p + 1 := ⟨f2 - 1, by omega⟩
    rw [descHaltsB, List.all_eq_true] at h
    rw [descFuel, descFuel]
    congr 1
    apply congrArg
    apply List.map_congr_left
    intro c hc
    exact ih c.id (h c hc) f2p (by omega)

theorem rank_descHalts (nodes : List GraphNode) (m : Str → Nat)
    (hm : ∀ n ∈ nodes, ∀ pid, n.parentId = some pid → m pid < m n.id) :
    ∀ (r : Nat) (nodeId : Str),
      (nodes.map (fun n => m n.id)).foldr max 0 + 1 - m nodeId < r →
      descHaltsB nodes r nodeId = true := by
  intro r
  induction r with
  | zero => intro nodeId h; exact absurd h (by omega)
  | succ r ih =>
    intro nodeId hbound
    rw [descHaltsB, List.all_eq_true]
    intro c hc
    have hcm : c ∈ nodes := List.mem_of_mem_filter hc
    have hcp : c.parentId = some nodeId := by
      have := List.of_mem_filter hc
      exact of_decide_eq_true this
    have hrank : m nodeId < m c.id := hm c hcm nodeId hcp
    have hcle : m c.id ≤ (nodes.map (fun n => m n.id)).foldr max 0 :=
      mem_le_foldrMax _ (m c.id) (List.mem_map_of_mem _ hcm)
    exact ih c.id (by omega)

/-- Claim C10, confirmed. On every graph state whose parent relation is
acyclic (witnessed by a decreasing ranking, as the depth function is on
every reachable state), both fuelled walks stabilize: past an explicit
fuel bound the ancestor walk and the descendant collection no longer
change, which is termination of the source's unbounded loop and recursion
over the shallow fuel embedding. -/
theorem claim10_walks_terminate (g : GraphData) (h : AcyclicParents g.nodes) :
    ∀ nodeId : Str,
      (∃ F : Nat, ∀ f : Nat, F ≤ f →
        chainStep g.nodes f nodeId [] = chainStep g.nodes F nodeId []) ∧
      (∃ F : Nat, ∀ f : Nat, F ≤ f →
        descFuel g.nodes f nodeId = descFuel g.nodes F nodeId) := by
  obtain ⟨m, hm⟩ := h
  intro nodeId
  constructor
  · refine ⟨m nodeId + 2, ?_⟩
    intro f hf
    have hhalt := rank_chainHalts g.nodes m hm (m nodeId) nodeId (Nat.le_refl _)
    exact chainStep_halt_eq g.nodes (m nodeId + 2) nodeId [] hhalt f hf
  · refine ⟨(g.nodes.map (fun n => m n.id)).foldr max 0 + 2, ?_⟩
    intro f hf
    have hhalt := rank_descHalts g.nodes m hm
      ((g.nodes.map (fun n => m n.id)).foldr max 0 + 2) nodeId (by omega)
    exact descFuel_halt_eq g.nodes _ nodeId hhalt f hf

/-- The sample state's parent relation is acyclic, ranked by the function
that is 0 on the root id and 1 elsewhere. -/
theorem sampleAcyclic : AcyclicParents sampleSmallState.graph.nodes := by
  refine ⟨fun currentId => if currentId = "root".toList then 0 else 1, ?_⟩
  intro n hn pid hpid
  simp only [sampleSmallState] at hn
  simp only [List.mem_cons, List.not_mem_nil, or_false] at hn
  rcases hn with rfl | rfl
  · exact absurd hpid (by simp)
  · simp only at hpid
    injection hpid with h
    rw [← h]
    decide

/-- Witness for claim C10 at the concrete sample state. -/
theorem claim10_witness :
    AcyclicParents sampleSmallState.graph.nodes ∧
    ((∃ F : Nat, ∀ f : Nat, F ≤ f →
        chainStep sampleSmallState.graph.nodes f "a".toList []
          = chainStep sampleSmallState.graph.nodes F "a".toList []) ∧
      (∃ F : Nat, ∀ f : Nat, F ≤ f →
        descFuel sampleSmallState.graph.nodes f "a".toList
          = descFuel sampleSmallState.graph.nodes F "a".toList)) :=
  ⟨sampleAcyclic, claim10_walks_terminate sampleSmallState.graph sampleAcyclic "a".toList⟩

/-! ### Descendant-set facts on invariant states, used by claim C9 -/

theorem descFuel_succ (nodes : List GraphNode) (f : Nat) (nodeId : Str) :
    descFuel nodes (f + 1) nodeId =
      (nodes.filter (fun n => decide (n.parentId = some nodeId))).map (fun c => c.id) ++
      ((nodes.filter (fun n => decide (n.parentId = some nodeId))).map
        (fun c => descFuel nodes f c.id)).flatten := rfl

theorem desc_mem (nodes : List GraphNode) :
    ∀ (f : Nat) (nodeId x : Str), x ∈ descFuel nodes f nodeId →
      ∃ c ∈ nodes, c.id = x ∧ ∃ pid, c.parentId = some pid := by
  intro f
  induction f with
  | zero => intro nodeId x h; simp [descFuel] at h
  | succ f ih =>
    intro nodeId x h
    rw [descFuel_succ] at h
    rcases List.mem_append.mp h with h1 | h2
    · obtain ⟨c, hc, rfl⟩ := List.mem_map.mp h1
      have hcm : c ∈ nodes := List.mem_of_mem_filter hc
      have hcp0 := List.of_mem_filter hc
      have hcp : c.parentId = some nodeId := of_decide_eq_true hcp0
      exact ⟨c, hcm, rfl, nodeId, hcp⟩
    · obtain ⟨l, hl, hx⟩ := List.mem_flatten.mp h2
      obtain ⟨c, _, rfl⟩ := List.mem_map.mp hl
      exact ih c.id x hx

theorem desc_depth (g : GraphData) (hInv : Inv g) :
    ∀ (f : Nat) (p : GraphNode), p ∈ g.nodes →
      ∀ x ∈ descFuel g.nodes f p.id, ∃ c ∈ g.nodes, c.id = x ∧ p.depth < c.depth := by
  intro f
  induction f with
  | zero => intro p _ x h; simp [descFuel] at h
  | succ f ih =>
    intro p hp x hx
    rw [descFuel_succ] at hx
    rcases List.mem_append.mp hx with h1 | h2
    · obtain ⟨c, hc, rfl⟩ := List.mem_map.mp h1
      have hcm : c ∈ g.nodes := List.mem_of_mem_filter hc
      have hcp0 := List.of_mem_filter hc
      have hcp : c.parentId = some p.id := of_decide_eq_true hcp0
      have := hInv.depthParent c hcm p.id hcp p hp rfl
      exact ⟨c, hcm, rfl, by omega⟩
    · obtain ⟨l, hl, hx2⟩ := List.mem_flatten.mp h2
      obtain ⟨c, hc, rfl⟩ := List.mem_map.mp hl
      have hcm : c ∈ g.nodes := List.mem_of_mem_filter hc
      have hcp0 := List.of_mem_filter hc
      have hcp : c.parentId = some p.id := of_decide_eq_true hcp0
      have hdc := hInv.depthParent c hcm p.id hcp p hp rfl
      obtain ⟨c2, hc2, hc2id, hc2d⟩ := ih c hcm x hx2
      exact ⟨c2, hc2, hc2id, by omega⟩

theorem desc_step (nodes : List GraphNode) :
    ∀ (f : Nat) (nodeId pid : Str), pid ∈ descFuel nodes f nodeId →
      ∀ c ∈ nodes, c.parentId = some pid → c.id ∈ descFuel nodes (f + 1) nodeId := by
  intro f
  induction f with
  | zero => intro nodeId pid h; simp [descFuel] at h
  | succ f ih =>
    intro nodeId pid hpid c hc hcp
    rw [descFuel_succ] at hpid
    rw [descFuel_succ]
    rcases List.mem_append.mp hpid with h1 | h2
    · obtain ⟨cc, hcc, hccid⟩ := List.mem_map.mp h1
      refine List.mem_append_right _ ?_
      rw [List.mem_flatten]
      refine ⟨descFuel nodes (f + 1) cc.id, List.mem_map_of_mem _ hcc, ?_⟩
      rw [descFuel_succ]
      refine List.mem_append_left _ ?_
      refine List.mem_map.mpr ⟨c, ?_, rfl⟩
      refine List.mem_filter.mpr ⟨hc, ?_⟩
      rw [hccid]
      exact decide_eq_true hcp
    · obtain ⟨l, hl, hpid2⟩ := List.mem_flatten.mp h2
      obtain ⟨cc, hcc, rfl⟩ := List.mem_map.mp hl
      refine List.mem_append_right _ ?_
      rw [List.mem_flatten]
      exact ⟨descFuel nodes (f + 1) cc.id, List.mem_map_of_mem _ hcc,
        ih cc.id pid hpid2 c hc hcp⟩

/-- The depth of the node carrying an id, the canonical ranking on
invariant states. -/
def depthRank (g : GraphData) : Str → Nat := fun currentId =>
  match g.nodes.find? (fun n => n.id = currentId) with
  | some n => n.depth
  | none => 0

theorem depthRank_self (g : GraphData) (hInv : Inv g) (n : GraphNode) (hn : n ∈ g.nodes) :
    depthRank g n.id = n.depth := by
  unfold depthRank
  rw [find_self g.nodes hInv.nodupIds n hn]

theorem inv_depthRank (g : GraphData) (hInv : Inv g) :
    ∀ n ∈ g.nodes, ∀ pid, n.parentId = some pid → depthRank g pid < depthRank g n.id := by
  intro n hn pid hpar
  obtain ⟨p, hp, hpid⟩ := hInv.parentPresent n hn pid hpar
  have h1 : depthRank g n.id = n.depth := depthRank_self g hInv n hn
  have h2 : depthRank g pid = p.depth := by rw [← hpid]; exact depthRank_self g hInv p hp
  rw [h1, h2, hInv.depthParent n hn pid hpar p hp hpid]
  omega

theorem getDescendants_stab (g : GraphData) (hInv : Inv g) (nodeId : Str) :
    ∀ f, maxDepthOf g.nodes + 2 ≤ f → descFuel g.nodes f nodeId = getDescendants g nodeId := by
  intro f hf
  have hmapeq : g.nodes.map (fun n => depthRank g n.id) = g.nodes.map (fun n => n.depth) :=
    List.map_congr_left (fun n hn => depthRank_self g hInv n hn)
  have hhalt : descHaltsB g.nodes (maxDepthOf g.nodes + 2) nodeId = true := by
    apply rank_descHalts g.nodes (depthRank g) (inv_depthRank g hInv)
    have hfold : (g.nodes.map (fun n => depthRank g n.id)).foldr max 0 = maxDepthOf g.nodes := by
      unfold maxDepthOf
      rw [hmapeq]
    omega
  exact descFuel_halt_eq g.nodes _ nodeId hhalt f hf

theorem desc_closed (g : GraphData) (hInv : Inv g) (nodeId : Str) :
    ∀ pid ∈ getDescendants g nodeId, ∀ c ∈ g.nodes, c.parentId = some pid →
      c.id ∈ getDescendants g nodeId := by
  intro pid hpid c hc hcp
  have h1 : c.id ∈ descFuel g.nodes (maxDepthOf g.nodes + 2 + 1) nodeId :=
    desc_step g.nodes (maxDepthOf g.nodes + 2) nodeId pid hpid c hc hcp
  rw [getDescendants_stab g hInv nodeId (maxDepthOf g.nodes + 2 + 1) (by omega)] at h1
  exact h1

theorem desc_not_self (g : GraphData) (hInv : Inv g) (n : GraphNode) (hn : n ∈ g.nodes) :
    n.id ∉ getDescendants g n.id := by
  intro h
  obtain ⟨c, hc, hcid, hdep⟩ := desc_depth g hInv (maxDepthOf g.nodes + 2) n hn n.id h
  have : c = n := id_inj g.nodes hInv.nodupIds c n hc hn hcid
  subst this
  omega

theorem desc_not_root (g : GraphData) (hInv : Inv g) (nodeId : Str) :
    "root".toList ∉ getDescendants g nodeId := by
  intro h
  obtain ⟨c, hc, hcid, pid, hcp⟩ :=
    desc_mem g.nodes (maxDepthOf g.nodes + 2) nodeId "root".toList h
  obtain ⟨r, hr, hrid, hrpar, _⟩ := hInv.rootMem
  have : c = r := id_inj g.nodes hInv.nodupIds c r hc hr (hcid.trans hrid.symm)
  rw [this, hrpar] at hcp
  exact Option.noConfusion hcp

/-! ### Invariant preservation of attachChildren -/

theorem flagMap_fields (idv : Str) (b : Bool) (n : GraphNode) :
    (if n.id = idv then { n with isExpanded := b } else n).id = n.id ∧
    (if n.id = idv then { n with isExpanded := b } else n).parentId = n.parentId ∧
    (if n.id = idv then { n with isExpanded := b } else n).depth = n.depth := by
  by_cases h : n.id = idv <;> simp [h]

theorem flagMap_map_id (idv : Str) (b : Bool) (nodes : List GraphNode) :
    ((nodes.map (fun n => if n.id = idv then { n with isExpanded := b } else n)).map
      (fun n => n.id)) = nodes.map (fun n => n.id) := by
  rw [List.map_map]
  apply List.map_congr_left
  intro n _
  show (if n.id = idv then { n with isExpanded := b } else n).id = n.id
  exact (flagMap_fields idv b n).1

theorem attach_nodes_eq (g : GraphData) (node : GraphNode) (res : ExpandResult)
    (freshIds : List Str) :
    (attachChildren g node res freshIds).nodes =
      g.nodes.map (fun n => if n.id = node.id then { n with isExpanded := true } else n) ++
      (mkNodes node NodeType.consequence res.consequences
        (freshIds.take res.consequences.length) ++
       mkNodes node NodeType.response res.responses
        (freshIds.drop res.consequences.length)) := rfl

theorem attach_links_eq (g : GraphData) (node : GraphNode) (res : ExpandResult)
    (freshIds : List Str) :
    (attachChildren g node res freshIds).links =
      g.links ++
      (mkNodes node NodeType.consequence res.consequences
        (freshIds.take res.consequences.length) ++
       mkNodes node NodeType.response res.responses
        (freshIds.drop res.consequences.length)).map
        (fun n => { source := n.parentId.getD [], target := n.id }) := rfl

theorem newNodes_spec (node : GraphNode) (res : ExpandResult) (freshIds : List Str)
    (x : GraphNode)
    (hx : x ∈ mkNodes node NodeType.consequence res.consequences
        (freshIds.take res.consequences.length) ++
      mkNodes node NodeType.response res.responses
        (freshIds.drop res.consequences.length)) :
    x.id ∈ freshIds ∧ x.parentId = some node.id ∧ x.depth = node.depth + 1 ∧
    x.isExpanded = false := by
  rcases List.mem_append.mp hx with h | h
  · obtain ⟨h1, h2, h3, h4⟩ := mkNodes_spec node NodeType.consequence _ _ x h
    exact ⟨List.take_subset _ _ h1, h2, h3, h4⟩
  · obtain ⟨h1, h2, h3, h4⟩ := mkNodes_spec node NodeType.response _ _ x h
    exact ⟨List.drop_subset _ _ h1, h2, h3, h4⟩

theorem newNodes_ids_sublist (node : GraphNode) (res : ExpandResult) (freshIds : List Str) :
    ((mkNodes node NodeType.consequence res.consequences
        (freshIds.take res.consequences.length) ++
      mkNodes node NodeType.response res.responses
        (freshIds.drop res.consequences.length)).map (fun n => n.id)).Sublist freshIds := by
  rw [List.map_append]
  have h1 := mkNodes_ids_sublist node NodeType.consequence res.consequences
    (freshIds.take res.consequences.length)
  have h2 := mkNodes_ids_sublist node NodeType.response res.responses
    (freshIds.drop res.consequences.length)
  have := List.Sublist.append h1 h2
  rw [List.take_append_drop] at this
  exact this

theorem attach_inv (g : GraphData) (hInv : Inv g) (node : GraphNode) (res : ExpandResult)
    (freshIds : List Str)
    (hq : ∃ q ∈ g.nodes, q.id = node.id ∧ q.depth = node.depth)
    (hnodup : freshIds.Nodup)
    (hfresh : ∀ i ∈ freshIds, (∀ n ∈ g.nodes, n.id ≠ i) ∧ i ≠ []) :
    Inv (attachChildren g node res freshIds) := by
  have hmemc : ∀ x, x ∈ (attachChildren g node res freshIds).nodes ↔
      ((∃ m ∈ g.nodes, x = if m.id = node.id then { m with isExpanded := true } else m) ∨
       x ∈ mkNodes node NodeType.consequence res.consequences
         (freshIds.take res.consequences.length) ++
        mkNodes node NodeType.response res.responses
         (freshIds.drop res.consequences.length)) := by
    intro x
    rw [attach_nodes_eq, List.mem_append, List.mem_map]
    apply or_congr _ Iff.rfl
    constructor
    · rintro ⟨a, ha, rfl⟩; exact ⟨a, ha, rfl⟩
    · rintro ⟨m, hm, rfl⟩; exact ⟨m, hm, rfl⟩
  refine ⟨?_, ?_, ?_, ?_, ?_, ?_, ?_⟩
  · rw [attach_nodes_eq, List.map_append, flagMap_map_id]
    rw [List.nodup_append]
    refine ⟨hInv.nodupIds, (newNodes_ids_sublist node res freshIds).nodup hnodup, ?_⟩
    intro a ha hb
    obtain ⟨n, hn, hnid⟩ := List.mem_map.mp ha
    have haf : a ∈ freshIds := (newNodes_ids_sublist node res freshIds).subset hb
    exact (hfresh a haf).1 n hn hnid
  · intro x hx
    rcases (hmemc x).mp hx with ⟨m, hm, rfl⟩ | hnew
    · rw [(flagMap_fields node.id true m).1]
      exact hInv.idsNonempty m hm
    · have := (newNodes_spec node res freshIds x hnew).1
      exact (hfresh x.id this).2
  · obtain ⟨r, hr, hrid, hrpar, hrd⟩ := hInv.rootMem
    refine ⟨if r.id = node.id then { r with isExpanded := true } else r, ?_, ?_, ?_, ?_⟩
    · exact (hmemc _).mpr (Or.inl ⟨r, hr, rfl⟩)
    · rw [(flagMap_fields node.id true r).1]; exact hrid
    · rw [(flagMap_fields node.id true r).2.1]; exact hrpar
    · rw [(flagMap_fields node.id true r).2.2]; exact hrd
  · intro x hx hpar
    rcases (hmemc x).mp hx with ⟨m, hm, rfl⟩ | hnew
    · rw [(flagMap_fields node.id true m).2.1] at hpar
      rw [(flagMap_fields node.id true m).1]
      exact hInv.parentlessRoot m hm hpar
    · have := (newNodes_spec node res freshIds x hnew).2.1
      rw [this] at hpar
      exact Option.noConfusion hpar
  · intro x hx pid hpar
    rcases (hmemc x).mp hx with ⟨m, hm, rfl⟩ | hnew
    · rw [(flagMap_fields node.id true m).2.1] at hpar
      obtain ⟨p, hp, hpid⟩ := hInv.parentPresent m hm pid hpar
      refine ⟨if p.id = node.id then { p with isExpanded := true } else p, ?_, ?_⟩
      · exact (hmemc _).mpr (Or.inl ⟨p, hp, rfl⟩)
      · rw [(flagMap_fields node.id true p).1]; exact hpid
    · have hxp := (newNodes_spec node res freshIds x hnew).2.1
      rw [hxp] at hpar
      have hpid : pid = node.id := (Option.some.injEq _ _ ▸ hpar.symm)
      obtain ⟨q, hqm, hqid, _⟩ := hq
      refine ⟨if q.id = node.id then { q with isExpanded := true } else q, ?_, ?_⟩
      · exact (hmemc _).mpr (Or.inl ⟨q, hqm, rfl⟩)
      · rw [(flagMap_fields node.id true q).1, hqid, hpid]
  · intro x hx pid hpar p2 hp2 hpe
    rcases (hmemc x).mp hx with ⟨m, hm, rfl⟩ | hnewx
    · rw [(flagMap_fields node.id true m).2.1] at hpar
      rcases (hmemc p2).mp hp2 with ⟨q, hqm, rfl⟩ | hnewp
      · rw [(flagMap_fields node.id true q).1] at hpe
        rw [(flagMap_fields node.id true m).2.2, (flagMap_fields node.id true q).2.2]
        exact hInv.depthParent m hm pid hpar q hqm hpe
      · exfalso
        have hpidf : p2.id ∈ freshIds := (newNodes_spec node res freshIds p2 hnewp).1
        obtain ⟨q, hqm, hqid⟩ := hInv.parentPresent m hm pid hpar
        rw [← hpe] at hqid
        exact (hfresh p2.id hpidf).1 q hqm hqid
    · have hxp := (newNodes_spec node res freshIds x hnewx).2.1
      have hxd := (newNodes_spec node res freshIds x hnewx).2.2.1
      rw [hxp] at hpar
      have hpid : pid = node.id := (Option.some.injEq _ _ ▸ hpar.symm)
      rcases (hmemc p2).mp hp2 with ⟨q, hqm, rfl⟩ | hnewp
      · rw [(flagMap_fields node.id true q).1] at hpe
        obtain ⟨q0, hq0m, hq0id, hq0d⟩ := hq
        have hqq0 : q = q0 := by
          apply id_inj g.nodes hInv.nodupIds q q0 hqm hq0m
          rw [hpe, hpid, hq0id]
        rw [(flagMap_fields node.id true q).2.2, hxd, hqq0, hq0d]
      · exfalso
        have hpidf : p2.id ∈ freshIds := (newNodes_spec node res freshIds p2 hnewp).1
        obtain ⟨q0, hq0m, hq0id, _⟩ := hq
        have : q0.id = p2.id := by rw [hq0id, ← hpid, ← hpe]
        exact (hfresh p2.id hpidf).1 q0 hq0m this
  · intro l
    rw [attach_links_eq, List.mem_append]
    constructor
    · rintro (hl | hl)
      · obtain ⟨n, hn, hnp, hnid⟩ := (hInv.linksIff l).mp hl
        refine ⟨if n.id = node.id then { n with isExpanded := true } else n, ?_, ?_, ?_⟩
        · exact (hmemc _).mpr (Or.inl ⟨n, hn, rfl⟩)
        · rw [(flagMap_fields node.id true n).2.1]; exact hnp
        · rw [(flagMap_fields node.id true n).1]; exact hnid
      · obtain ⟨n2, hn2, rfl⟩ := List.mem_map.mp hl
        have hn2p := (newNodes_spec node res freshIds n2 hn2).2.1
        refine ⟨n2, (hmemc _).mpr (Or.inr hn2), ?_, rfl⟩
        show n2.parentId = some (n2.parentId.getD [])
        rw [hn2p]
        rfl
    · rintro ⟨n2, hn2, hpar, hid⟩
      rcases (hmemc n2).mp hn2 with ⟨m, hm, rfl⟩ | hnew
      · left
        rw [(flagMap_fields node.id true m).2.1] at hpar
        rw [(flagMap_fields node.id true m).1] at hid
        exact (hInv.linksIff l).mpr ⟨m, hm, hpar, hid⟩
      · right
        have : ({ source := n2.parentId.getD [], target := n2.id } : GraphLink) = l := by
          cases l with
          | mk src tgt =>
            simp only at hpar hid
            rw [hpar]
            simp only [Option.getD_some]
            rw [hid]
        rw [← this]
        exact List.mem_map_of_mem _ hnew

/-! ### Invariant preservation of the two pruning operations -/

theorem prune_inv (g : GraphData) (hInv : Inv g) (nodeId : Str) :
    Inv { nodes := (g.nodes.filter
            (fun n => decide (n.id ∉ getDescendants g nodeId))).map
            (fun n => if n.id = nodeId then { n with isExpanded := false } else n),
          links := g.links.filter
            (fun l => decide (l.source ∉ getDescendants g nodeId ∧
              l.target ∉ getDescendants g nodeId)) } := by
  have hmemc : ∀ x, (x ∈ (g.nodes.filter
        (fun n => decide (n.id ∉ getDescendants g nodeId))).map
        (fun n => if n.id = nodeId then { n with isExpanded := false } else n)) ↔
      ∃ m, m ∈ g.nodes ∧ m.id ∉ getDescendants g nodeId ∧
        x = (if m.id = nodeId then { m with isExpanded := false } else m) := by
    intro x
    rw [List.mem_map]
    constructor
    · rintro ⟨a, ha, rfl⟩
      have ham := List.mem_of_mem_filter ha
      have hap0 := List.of_mem_filter ha
      exact ⟨a, ham, of_decide_eq_true hap0, rfl⟩
    · rintro ⟨m, hm, hmd, rfl⟩
      exact ⟨m, List.mem_filter.mpr ⟨hm, decide_eq_true hmd⟩, rfl⟩
  refine ⟨?_, ?_, ?_, ?_, ?_, ?_, ?_⟩
  · show (((g.nodes.filter (fun n => decide (n.id ∉ getDescendants g nodeId))).map
        (fun n => if n.id = nodeId then { n with isExpanded := false } else n)).map
        (fun n => n.id)).Nodup
    rw [flagMap_map_id]
    exact ((List.filter_sublist g.nodes).map (fun n => n.id)).nodup hInv.nodupIds
  · intro x hx
    obtain ⟨m, hm, _, rfl⟩ := (hmemc x).mp hx
    rw [(flagMap_fields nodeId false m).1]
    exact hInv.idsNonempty m hm
  · obtain ⟨r, hr, hrid, hrpar, hrd⟩ := hInv.rootMem
    have hrd2 : r.id ∉ getDescendants g nodeId := by
      rw [hrid]
      exact desc_not_root g hInv nodeId
    refine ⟨if r.id = nodeId then { r with isExpanded := false } else r,
      (hmemc _).mpr ⟨r, hr, hrd2, rfl⟩, ?_, ?_, ?_⟩
    · rw [(flagMap_fields nodeId false r).1]; exact hrid
    · rw [(flagMap_fields nodeId false r).2.1]; exact hrpar
    · rw [(flagMap_fields nodeId false r).2.2]; exact hrd
  · intro x hx hpar
    obtain ⟨m, hm, _, rfl⟩ := (hmemc x).mp hx
    rw [(flagMap_fields nodeId false m).2.1] at hpar
    rw [(flagMap_fields nodeId false m).1]
    exact hInv.parentlessRoot m hm hpar
  · intro x hx pid hpar
    obtain ⟨m, hm, hmd, rfl⟩ := (hmemc x).mp hx
    rw [(flagMap_fields nodeId false m).2.1] at hpar
    obtain ⟨p, hp, hpid⟩ := hInv.parentPresent m hm pid hpar
    have hpd : p.id ∉ getDescendants g nodeId := by
      intro hin
      exact hmd (desc_closed g hInv nodeId p.id (hpid ▸ hin) m hm (hpid ▸ hpar))
    refine ⟨if p.id = nodeId then { p with isExpanded := false } else p,
      (hmemc _).mpr ⟨p, hp, hpd, rfl⟩, ?_⟩
    rw [(flagMap_fields nodeId false p).1]
    exact hpid
  · intro x hx pid hpar p2 hp2 hpe
    obtain ⟨m, hm, _, rfl⟩ := (hmemc x).mp hx
    obtain ⟨q, hq, _, rfl⟩ := (hmemc p2).mp hp2
    rw [(flagMap_fields nodeId false m).2.1] at hpar
    rw [(flagMap_fields nodeId false q).1] at hpe
    rw [(flagMap_fields nodeId false m).2.2, (flagMap_fields nodeId false q).2.2]
    exact hInv.depthParent m hm pid hpar q hq hpe
  · intro l
    rw [List.mem_filter]
    constructor
    · rintro ⟨hl, hcond⟩
      obtain ⟨hsrc, htgt⟩ := of_decide_eq_true hcond
      obtain ⟨n, hn, hnp, hnid⟩ := (hInv.linksIff l).mp hl
      refine ⟨if n.id = nodeId then { n with isExpanded := false } else n,
        (hmemc _).mpr ⟨n, hn, hnid ▸ htgt, rfl⟩, ?_, ?_⟩
      · rw [(flagMap_fields nodeId false n).2.1]; exact hnp
      · rw [(flagMap_fields nodeId false n).1]; exact hnid
    · rintro ⟨n2, hn2, hpar, hid⟩
      obtain ⟨m, hm, hmd, rfl⟩ := (hmemc n2).mp hn2
      rw [(flagMap_fields nodeId false m).2.1] at hpar
      rw [(flagMap_fields nodeId false m).1] at hid
      have hl : l ∈ g.links := (hInv.linksIff l).mpr ⟨m, hm, hpar, hid⟩
      have hsrc : l.source ∉ getDescendants g nodeId := by
        intro hin
        exact hmd (desc_closed g hInv nodeId l.source hin m hm hpar)
      have htgt : l.target ∉ getDescendants g nodeId := hid ▸ hmd
      exact ⟨hl, decide_eq_true ⟨hsrc, htgt⟩⟩

theorem country_inv (s : AppState) (newCountry : Option Str) (hInv : Inv s.graph) :
    Inv (handleCountryChange newCountry s).graph := by
  have hnodes : (handleCountryChange newCountry s).graph.nodes =
      (s.graph.nodes.filter (fun n => decide (n.depth ≤ 1))).map
        (fun n => { n with isExpanded := decide (n.depth = 0) }) := rfl
  have hlinks : (handleCountryChange newCountry s).graph.links =
      s.graph.links.filter (fun l =>
        decide (l.source ∈ (s.graph.nodes.filter (fun n => decide (n.depth ≤ 1))).map
          (fun n => n.id)) &&
        decide (l.target ∈ (s.graph.nodes.filter (fun n => decide (n.depth ≤ 1))).map
          (fun n => n.id))) := rfl
  have hmemc : ∀ x, x ∈ (handleCountryChange newCountry s).graph.nodes ↔
      ∃ m, m ∈ s.graph.nodes ∧ m.depth ≤ 1 ∧
        x = { m with isExpanded := decide (m.depth = 0) } := by
    intro x
    rw [hnodes, List.mem_map]
    constructor
    · rintro ⟨a, ha, rfl⟩
      have ham := List.mem_of_mem_filter ha
      have hap0 := List.of_mem_filter ha
      exact ⟨a, ham, of_decide_eq_true hap0, rfl⟩
    · rintro ⟨m, hm, hmd, rfl⟩
      exact ⟨m, List.mem_filter.mpr ⟨hm, decide_eq_true hmd⟩, rfl⟩
  refine ⟨?_, ?_, ?_, ?_, ?_, ?_, ?_⟩
  · rw [hnodes, List.map_map]
    have : ((s.graph.nodes.filter (fun n => decide (n.depth ≤ 1))).map
        ((fun n => n.id) ∘ (fun n => { n with isExpanded := decide (n.depth = 0) }))) =
        (s.graph.nodes.filter (fun n => decide (n.depth ≤ 1))).map (fun n => n.id) := by
      apply List.map_congr_left
      intro n _
      rfl
    rw [this]
    exact ((List.filter_sublist s.graph.nodes).map (fun n => n.id)).nodup hInv.nodupIds
  · intro x hx
    obtain ⟨m, hm, _, rfl⟩ := (hmemc x).mp hx
    exact hInv.idsNonempty m hm
  · obtain ⟨r, hr, hrid, hrpar, hrd⟩ := hInv.rootMem
    exact ⟨{ r with isExpanded := decide (r.depth = 0) },
      (hmemc _).mpr ⟨r, hr, by omega, rfl⟩, hrid, hrpar, hrd⟩
  · intro x hx hpar
    obtain ⟨m, hm, _, rfl⟩ := (hmemc x).mp hx
    exact hInv.parentlessRoot m hm hpar
  · intro x hx pid hpar
    obtain ⟨m, hm, hmd, rfl⟩ := (hmemc x).mp hx
    obtain ⟨p, hp, hpid⟩ := hInv.parentPresent m hm pid hpar
    have hmdep : m.depth = p.depth + 1 := hInv.depthParent m hm pid hpar p hp hpid
    exact ⟨{ p with isExpanded := decide (p.depth = 0) },
      (hmemc _).mpr ⟨p, hp, by omega, rfl⟩, hpid⟩
  · intro x hx pid hpar p2 hp2 hpe
    obtain ⟨m, hm, _, rfl⟩ := (hmemc x).mp hx
    obtain ⟨q, hq, _, rfl⟩ := (hmemc p2).mp hp2
    exact hInv.depthParent m hm pid hpar q hq hpe
  · intro l
    rw [hlinks, List.mem_filter, Bool.and_eq_true]
    constructor
    · rintro ⟨hl, hsrc, htgt⟩
      obtain ⟨n, hn, hnp, hnid⟩ := (hInv.linksIff l).mp hl
      have htgt2 := of_decide_eq_true htgt
      obtain ⟨m, hmf, hmid⟩ := List.mem_map.mp htgt2
      have hmm := List.mem_of_mem_filter hmf
      have hmd0 := List.of_mem_filter hmf
      have hmd : m.depth ≤ 1 := of_decide_eq_true hmd0
      have hmn : m = n := id_inj s.graph.nodes hInv.nodupIds m n hmm hn (hmid.trans hnid.symm)
      subst hmn
      exact ⟨{ m with isExpanded := decide (m.depth = 0) },
        (hmemc _).mpr ⟨m, hmm, hmd, rfl⟩, hnp, hnid⟩
    · rintro ⟨n2, hn2, hpar, hid⟩
      obtain ⟨m, hm, hmd, rfl⟩ := (hmemc n2).mp hn2
      have hl : l ∈ s.graph.links := (hInv.linksIff l).mpr ⟨m, hm, hpar, hid⟩
      obtain ⟨p, hp, hpid⟩ := hInv.parentPresent m hm l.source hpar
      have hmdep : m.depth = p.depth + 1 := hInv.depthParent m hm l.source hpar p hp hpid
      have hpd : p.depth ≤ 1 := by omega
      refine ⟨hl, decide_eq_true ?_, decide_eq_true ?_⟩
      · exact List.mem_map.mpr ⟨p, List.mem_filter.mpr ⟨hp, decide_eq_true hpd⟩, hpid⟩
      · exact List.mem_map.mpr ⟨m, List.mem_filter.mpr ⟨hm, decide_eq_true hmd⟩, hid⟩

/-- The fixed root node built by initialization. -/
def initRootNode : GraphNode :=
  { id := "root".toList, label := "National Riots for Democracy".toList,
    parentId := none, depth := 0, isExpanded := true, nodeType := NodeType.root }

theorem init_inv (initialBranches freshIds : List Str) (hnodup : freshIds.Nodup)
    (hfresh : ∀ i ∈ freshIds, i ≠ "root".toList ∧ i ≠ []) :
    Inv (initGraph initialBranches freshIds) := by
  have hnodes_eq : (initGraph initialBranches freshIds).nodes =
      initRootNode :: mkNodes initRootNode NodeType.primary_effect initialBranches freshIds :=
    rfl
  have hlinks_eq : (initGraph initialBranches freshIds).links =
      ((initRootNode :: mkNodes initRootNode NodeType.primary_effect initialBranches
        freshIds).filter (fun n => n.parentId.isSome)).map
        (fun n => { source := n.parentId.getD [], target := n.id }) := rfl
  have hroot : initRootNode ∈ (initGraph initialBranches freshIds).nodes := by
    rw [hnodes_eq]
    exact List.mem_cons_self _ _
  have hchild : ∀ x ∈ (initGraph initialBranches freshIds).nodes,
      x = initRootNode ∨
      (x.id ∈ freshIds ∧ x.parentId = some "root".toList ∧ x.depth = 1) := by
    intro x hx
    rw [hnodes_eq] at hx
    rcases List.mem_cons.mp hx with rfl | hx2
    · exact Or.inl rfl
    · obtain ⟨h1, h2, h3, _⟩ :=
        mkNodes_spec initRootNode NodeType.primary_effect initialBranches freshIds x hx2
      exact Or.inr ⟨h1, h2, h3⟩
  refine ⟨?_, ?_, ?_, ?_, ?_, ?_, ?_⟩
  · rw [hnodes_eq]
    show ("root".toList ::
      (mkNodes initRootNode NodeType.primary_effect initialBranches freshIds).map
        (fun n => n.id)).Nodup
    rw [List.nodup_cons]
    constructor
    · intro hmem
      have := (mkNodes_ids_sublist initRootNode NodeType.primary_effect
        initialBranches freshIds).subset hmem
      exact (hfresh _ this).1 rfl
    · exact (mkNodes_ids_sublist initRootNode NodeType.primary_effect
        initialBranches freshIds).nodup hnodup
  · intro x hx
    rcases hchild x hx with rfl | ⟨h1, _, _⟩
    · decide
    · exact (hfresh x.id h1).2
  · exact ⟨initRootNode, hroot, rfl, rfl, rfl⟩
  · intro x hx hpar
    rcases hchild x hx with rfl | ⟨_, h2, _⟩
    · rfl
    · rw [h2] at hpar; exact Option.noConfusion hpar
  · intro x hx pid hpar
    rcases hchild x hx with rfl | ⟨_, h2, _⟩
    · exact absurd hpar (by simp [initRootNode])
    · rw [h2] at hpar
      have : pid = "root".toList := (Option.some.injEq _ _ ▸ hpar.symm)
      exact ⟨initRootNode, hroot, this.symm⟩
  · intro x hx pid hpar p2 hp2 hpe
    rcases hchild x hx with rfl | ⟨_, h2, h3⟩
    · exact absurd hpar (by simp [initRootNode])
    · rw [h2] at hpar
      have hpidr : pid = "root".toList := (Option.some.injEq _ _ ▸ hpar.symm)
      rcases hchild p2 hp2 with rfl | ⟨hp1, _, _⟩
      · exact h3
      · exfalso
        rw [hpe, hpidr] at hp1
        exact (hfresh _ hp1).1 rfl
  · intro l
    rw [hlinks_eq]
    constructor
    · intro hl
      obtain ⟨n2, hn2, hval⟩ := List.mem_map.mp hl
      have hn2m : n2 ∈ (initGraph initialBranches freshIds).nodes := by
        rw [hnodes_eq]
        exact List.mem_of_mem_filter hn2
      rcases hchild n2 hn2m with rfl | ⟨_, h2, _⟩
      · exfalso
        have := List.of_mem_filter hn2
        simp [initRootNode] at this
      · refine ⟨n2, hn2m, ?_, ?_⟩
        · rw [← hval, h2]
          rfl
        · rw [← hval]
    · rintro ⟨n2, hn2, hpar, hid⟩
      rcases hchild n2 hn2 with rfl | ⟨_, h2, _⟩
      · exact absurd hpar (by simp [initRootNode])
      · have hval : ({ source := n2.parentId.getD [], target := n2.id } : GraphLink) = l := by
          cases l with
          | mk src tgt =>
            simp only at hpar hid
            rw [hpar]
            simp only [Option.getD_some]
            rw [hid]
        rw [← hval]
        apply List.mem_map_of_mem
        apply List.mem_filter.mpr
        refine ⟨?_, ?_⟩
        · rw [← hnodes_eq]; exact hn2
        · rw [h2]
          rfl

/-- The pruned graph computed by handleRefreshNode before re-expanding:
descendants of the given node removed, the node's flag reset, links
touching removed nodes dropped. -/
def prunedOf (g : GraphData) (nodeId : Str) : GraphData :=
  { nodes := (g.nodes.filter (fun n => decide (n.id ∉ getDescendants g nodeId))).map
      (fun n => if n.id = nodeId then { n with isExpanded := false } else n),
    links := g.links.filter
      (fun l => decide (l.source ∉ getDescendants g nodeId ∧
        l.target ∉ getDescendants g nodeId)) }

/-! ### Claim C9 -/

/-- Claim C9, confirmed. Initialization establishes, and expand, refresh
and context switch preserve, the structural invariant `Inv`: unique
nonempty ids, exactly one parentless node (the root sentinel at depth 0 —
parentless nodes carry the root id, and the root is present), every
non-root parent reference resolving to a present node, depth equal to the
parent's depth plus one, and the link set exactly the derived set of
(parentId, id) pairs. The fresh-id hypotheses state what uuidv4 supplies:
new ids that are nonempty, pairwise distinct and unused. -/
theorem claim9_invariant_preservation :
    (∀ (initialBranches freshIds : List Str), freshIds.Nodup →
      (∀ i ∈ freshIds, i ≠ "root".toList ∧ i ≠ []) →
      Inv (initGraph initialBranches freshIds)) ∧
    (∀ (o : GenOracle) (freshIds : List Str) (node : GraphNode) (s : AppState),
      Inv s.graph → node ∈ s.graph.nodes → freshIds.Nodup →
      (∀ i ∈ freshIds, (∀ n ∈ s.graph.nodes, n.id ≠ i) ∧ i ≠ []) →
      Inv (handleExpandNode o freshIds node s).graph) ∧
    (∀ (o : GenOracle) (freshIds : List Str) (node : GraphNode) (s : AppState),
      Inv s.graph → node ∈ s.graph.nodes → freshIds.Nodup →
      (∀ i ∈ freshIds, (∀ n ∈ s.graph.nodes, n.id ≠ i) ∧ i ≠ []) →
      Inv (handleRefreshNode o freshIds node s).graph) ∧
    (∀ (newCountry : Option Str) (s : AppState),
      Inv s.graph → Inv (handleCountryChange newCountry s).graph) := by
  refine ⟨init_inv, ?_, ?_, fun newCountry s hInv => country_inv s newCountry hInv⟩
  · intro o freshIds node s hInv hmem hnodup hfresh
    by_cases hguard : node.isExpanded = true ∨ 50 ≤ node.depth
    · have : handleExpandNode o freshIds node s = s := by
        simp [handleExpandNode, hguard]
      rw [this]
      exact hInv
    · cases hres0 : expandNode o s.svc node.label (buildParentChain s.graph node.id)
          s.selectedCountry with
      | mk fst svc2 =>
        cases fst with
        | error e =>
          have : (handleExpandNode o freshIds node s).graph = s.graph := by
            simp only [handleExpandNode, if_neg hguard, hres0]
          rw [this]
          exact hInv
        | ok r =>
          have : (handleExpandNode o freshIds node s).graph =
              attachChildren s.graph node r freshIds := by
            simp only [handleExpandNode, if_neg hguard, hres0]
          rw [this]
          exact attach_inv s.graph hInv node r freshIds ⟨node, hmem, rfl, rfl⟩ hnodup hfresh
  · intro o freshIds node s hInv hmem hnodup hfresh
    by_cases hguard : node.isExpanded = false
    · have : handleRefreshNode o freshIds node s = s := by
        simp [handleRefreshNode, hguard]
      rw [this]
      exact hInv
    · have hInvP : Inv (prunedOf s.graph node.id) := prune_inv s.graph hInv node.id
      have hnotD : node.id ∉ getDescendants s.graph node.id := desc_not_self s.graph hInv node hmem
      have hq : ∃ q ∈ (prunedOf s.graph node.id).nodes,
          q.id = node.id ∧ q.depth = node.depth := by
        refine ⟨if node.id = node.id then { node with isExpanded := false } else node, ?_, ?_, ?_⟩
        · exact List.mem_map_of_mem _ (List.mem_filter.mpr ⟨hmem, decide_eq_true hnotD⟩)
        · exact (flagMap_fields node.id false node).1
        · exact (flagMap_fields node.id false node).2.2
      have hfresh2 : ∀ i ∈ freshIds,
          (∀ n2 ∈ (prunedOf s.graph node.id).nodes, n2.id ≠ i) ∧ i ≠ [] := by
        intro i hi
        refine ⟨?_, (hfresh i hi).2⟩
        intro n2 hn2
        obtain ⟨m, hmf, rfl⟩ := List.mem_map.mp hn2
        rw [(flagMap_fields node.id false m).1]
        exact (hfresh i hi).1 m (List.mem_of_mem_filter hmf)
      cases hres0 : expandNode o (clearNodeCache s.svc node.label
          (buildParentChain s.graph node.id)) node.label
          (buildParentChain s.graph node.id) s.selectedCountry with
      | mk fst svc2 =>
        cases fst with
        | error e =>
          have : (handleRefreshNode o freshIds node s).graph = prunedOf s.graph node.id := by
            simp only [handleRefreshNode, if_neg hguard, hres0, prunedOf]
          rw [this]
          exact hInvP
        | ok r =>
          have : (handleRefreshNode o freshIds node s).graph =
              attachChildren (prunedOf s.graph node.id) node r freshIds := by
            simp only [handleRefreshNode, if_neg hguard, hres0, prunedOf]
          rw [this]
          exact attach_inv _ hInvP node r freshIds hq hnodup hfresh2

/-- The root node of the sample state, handed to the refresh handler. -/
def sampleRootNode : GraphNode :=
  { id := "root".toList, label := "r".toList, parentId := none, depth := 0,
    isExpanded := true, nodeType := NodeType.root }

/-- Witness for claim C9: all four operations applied at concrete inputs
on the sample state, each hypothesis discharged there. -/
theorem claim9_witness :
    Inv (initGraph ["A".toList] ["u1".toList]) ∧
    Inv (handleExpandNode failingOracle ["u1".toList, "u2".toList] sampleNodeA
      sampleSmallState).graph ∧
    Inv (handleRefreshNode failingOracle ["u1".toList, "u2".toList] sampleRootNode
      sampleSmallState).graph ∧
    Inv (handleCountryChange (some "fr".toList) sampleSmallState).graph :=
  ⟨claim9_invariant_preservation.1 ["A".toList] ["u1".toList] (by decide) (by decide),
   claim9_invariant_preservation.2.1 failingOracle ["u1".toList, "u2".toList] sampleNodeA
     sampleSmallState sampleInv (by decide) (by decide) (by decide),
   claim9_invariant_preservation.2.2.1 failingOracle ["u1".toList, "u2".toList] sampleRootNode
     sampleSmallState sampleInv (by decide) (by decide) (by decide),
   claim9_invariant_preservation.2.2.2 (some "fr".toList) sampleSmallState sampleInv⟩

/-! ### Claim C4: algebra of replaceAll -/

theorem replAux_skip (pat rep : Str) :
    ∀ (t b : Str), replAux pat rep (t ++ b) t.length = replAux pat rep b 0 := by
  intro t
  induction t with
  | nil => intro b; rfl
  | cons c t2 ih => intro b; exact ih b

theorem replaceAll_nil (pat rep : Str) : replaceAll pat rep [] = [] := rfl

theorem replaceAll_head_match (pat rep b : Str) (hne : pat ≠ []) :
    replaceAll pat rep (pat ++ b) = rep ++ replaceAll pat rep b := by
  obtain ⟨d, pat2, rfl⟩ : ∃ d pat2, pat = d :: pat2 := by
    cases pat with
    | nil => exact absurd rfl hne
    | cons d pat2 => exact ⟨d, pat2, rfl⟩
  show replAux (d :: pat2) rep (d :: (pat2 ++ b)) 0 = rep ++ replAux (d :: pat2) rep b 0
  rw [replAux]
  have hpre : (d :: pat2).isPrefixOf (d :: (pat2 ++ b)) = true :=
    List.isPrefixOf_iff_prefix.mpr ⟨b, rfl⟩
  rw [if_pos hpre]
  have hlen : (d :: pat2).length - 1 = pat2.length := by simp
  rw [hlen, replAux_skip]

theorem replaceAll_head_miss (pat rep : Str) (c : Char) (rest : Str)
    (h : ¬ pat <+: (c :: rest)) :
    replaceAll pat rep (c :: rest) = c :: replaceAll pat rep rest := by
  show replAux pat rep (c :: rest) 0 = c :: replAux pat rep rest 0
  rw [replAux]
  have hpre : pat.isPrefixOf (c :: rest) = false := by
    cases hb : pat.isPrefixOf (c :: rest) with
    | false => rfl
    | true => exact absurd (List.isPrefixOf_iff_prefix.mp hb) h
  rw [hpre]
  simp

theorem replaceAll_skip_over (pat rep : Str) :
    ∀ (a b : Str),
      (∀ a1 a2, a = a1 ++ a2 → a2 ≠ [] → ¬ pat <+: (a2 ++ b)) →
      replaceAll pat rep (a ++ b) = a ++ replaceAll pat rep b := by
  intro a
  induction a with
  | nil => intro b _; rfl
  | cons c a2 ih =>
    intro b hsafe
    have hmiss : ¬ pat <+: (c :: (a2 ++ b)) := by
      have := hsafe [] (c :: a2) rfl (List.cons_ne_nil _ _)
      simpa using this
    rw [List.cons_append, replaceAll_head_miss pat rep c (a2 ++ b) hmiss]
    have ihb := ih b (fun a1 a3 heq hne =>
      hsafe (c :: a1) a3 (by rw [heq, List.cons_append]) hne)
    rw [ihb, List.cons_append]

theorem replaceAll_single (a : Char) (rep : Str) (c : Char) (t : Str) :
    replaceAll [a] rep (c :: t) =
      (if c = a then rep else [c]) ++ replaceAll [a] rep t := by
  by_cases h : c = a
  · subst h
    rw [if_pos rfl]
    have : (c :: t) = [c] ++ t := rfl
    rw [this, replaceAll_head_match [c] rep t (List.cons_ne_nil _ _)]
  · rw [if_neg h]
    have hmiss : ¬ [a] <+: (c :: t) := by
      intro hpre
      have := (List.cons_prefix_cons.mp hpre).1
      exact h this.symm
    rw [replaceAll_head_miss [a] rep c t hmiss]
    rfl

theorem replaceAll_single_append (a : Char) (rep : Str) :
    ∀ (u v : Str), replaceAll [a] rep (u ++ v) =
      replaceAll [a] rep u ++ replaceAll [a] rep v := by
  intro u
  induction u with
  | nil => intro v; rfl
  | cons c u2 ih =>
    intro v
    rw [List.cons_append, replaceAll_single, replaceAll_single, ih, List.append_assoc]

/-! ### Claim C4: normal form of the encoder -/

/-- A marker: the stem wrapped in underscores. -/
def mark (stem : Str) : Str := '_' :: stem ++ ['_']

/-- The nine special characters with their marker stems, in the order the
source applies them. -/
def pairs : List (Char × Str) :=
  [('|', "pipe".toList), ('>', "gt".toList), ('<', "lt".toList),
   ('/', "slash".toList), ('.', "dot".toList), ('#', "hash".toList),
   ('$', "dollar".toList), ('[', "lbracket".toList), (']', "rbracket".toList)]

/-- Per-character encoding against a list of (special, stem) entries. -/
def encMap (ps : List (Char × Str)) (c : Char) : Str :=
  match ps.find? (fun q => q.1 = c) with
  | some q => mark q.2
  | none => [c]

/-- Character-by-character encoding of a whole string. -/
def encAll (ps : List (Char × Str)) : Str → Str
  | [] => []
  | c :: t => encMap ps c ++ encAll ps t

theorem encAll_nil_pairs : ∀ x : Str, encAll [] x = x := by
  intro x
  induction x with
  | nil => rfl
  | cons c t ih =>
    show encMap [] c ++ encAll [] t = c :: t
    rw [ih]
    rfl

theorem sanitize_single (c : Char) : sanitizeKey [c] = encMap pairs c := by
  by_cases h1 : c = '|'
  · subst h1; decide
  by_cases h2 : c = '>'
  · subst h2; decide
  by_cases h3 : c = '<'
  · subst h3; decide
  by_cases h4 : c = '/'
  · subst h4; decide
  by_cases h5 : c = '.'
  · subst h5; decide
  by_cases h6 : c = '#'
  · subst h6; decide
  by_cases h7 : c = '$'
  · subst h7; decide
  by_cases h8 : c = '['
  · subst h8; decide
  by_cases h9 : c = ']'
  · subst h9; decide
  have hmap : encMap pairs c = [c] := by
    unfold encMap
    have : pairs.find? (fun q => q.1 = c) = none := by
      rw [List.find?_eq_none]
      intro q hq hdec
      have hqc : q.1 = c := of_decide_eq_true hdec
      simp only [pairs, List.mem_cons, List.not_mem_nil, or_false] at hq
      rcases hq with rfl | rfl | rfl | rfl | rfl | rfl | rfl | rfl | rfl
      · exact h1 hqc.symm
      · exact h2 hqc.symm
      · exact h3 hqc.symm
      · exact h4 hqc.symm
      · exact h5 hqc.symm
      · exact h6 hqc.symm
      · exact h7 hqc.symm
      · exact h8 hqc.symm
      · exact h9 hqc.symm
    rw [this]
  rw [hmap]
  show replaceAll [']'] "_rbracket_".toList
    (replaceAll ['['] "_lbracket_".toList
    (replaceAll ['$'] "_dollar_".toList
    (replaceAll ['#'] "_hash_".toList
    (replaceAll ['.'] "_dot_".toList
    (replaceAll ['/'] "_slash_".toList
    (replaceAll ['<'] "_lt_".toList
    (replaceAll ['>'] "_gt_".toList
    (replaceAll ['|'] "_pipe_".toList [c])))))))) = [c]
  have single_ne : ∀ (a : Char) (rep : Str), c ≠ a → replaceAll [a] rep [c] = [c] := by
    intro a rep hne
    have : ([c] : Str) = c :: [] := rfl
    rw [this, replaceAll_single, if_neg hne]
    rfl
  rw [single_ne '|' _ h1, single_ne '>' _ h2, single_ne '<' _ h3, single_ne '/' _ h4,
      single_ne '.' _ h5, single_ne '#' _ h6, single_ne '$' _ h7, single_ne '[' _ h8,
      single_ne ']' _ h9]

theorem sanitize_cons (c : Char) (t : Str) :
    sanitizeKey (c :: t) = sanitizeKey [c] ++ sanitizeKey t := by
  have hsplit : (c :: t) = [c] ++ t := rfl
  show replaceAll [']'] "_rbracket_".toList
    (replaceAll ['['] "_lbracket_".toList
    (replaceAll ['$'] "_dollar_".toList
    (replaceAll ['#'] "_hash_".toList
    (replaceAll ['.'] "_dot_".toList
    (replaceAll ['/'] "_slash_".toList
    (replaceAll ['<'] "_lt_".toList
    (replaceAll ['>'] "_gt_".toList
    (replaceAll ['|'] "_pipe_".toList (c :: t))))))))) = _
  rw [hsplit]
  rw [replaceAll_single_append '|', replaceAll_single_append '>',
      replaceAll_single_append '<', replaceAll_single_append '/',
      replaceAll_single_append '.', replaceAll_single_append '#',
      replaceAll_single_append '$', replaceAll_single_append '[',
      replaceAll_single_append ']']
  rfl

theorem sanitize_norm : ∀ x : Str, sanitizeKey x = encAll pairs x := by
  intro x
  induction x with
  | nil => rfl
  | cons c t ih =>
    rw [sanitize_cons, sanitize_single, ih]
    rfl

/-! ### Claim C4: the decoder recovers marker blocks -/

theorem stem_transfer (ps : List (Char × Str)) (stem : Str)
    (hstem : ∀ ch ∈ stem, ch ≠ '_' ∧ ∀ q ∈ ps, q.1 ≠ ch) :
    ∀ x : Str, stem <+: encAll ps x → stem <+: x := by
  induction stem with
  | nil => intro x _; exact List.nil_prefix
  | cons a stem2 ih =>
    intro x hpre
    cases x with
    | nil =>
      exfalso
      have h0 : encAll ps [] = [] := rfl
      rw [h0] at hpre
      obtain ⟨w, hw⟩ := hpre
      rw [List.cons_append] at hw
      exact List.cons_ne_nil _ _ hw
    | cons c x2 =>
      have hene : encAll ps (c :: x2) = encMap ps c ++ encAll ps x2 := rfl
      rw [hene] at hpre
      cases hf : ps.find? (fun q => q.1 = c) with
      | none =>
        have hmap : encMap ps c = [c] := by unfold encMap; rw [hf]
        rw [hmap] at hpre
        have hpre2 : a :: stem2 <+: c :: encAll ps x2 := hpre
        obtain ⟨hac, hrest⟩ := List.cons_prefix_cons.mp hpre2
        have hstem2 : ∀ ch ∈ stem2, ch ≠ '_' ∧ ∀ q ∈ ps, q.1 ≠ ch :=
          fun ch hch => hstem ch (List.mem_cons_of_mem a hch)
        have := ih hstem2 x2 hrest
        exact List.cons_prefix_cons.mpr ⟨hac, this⟩
      | some q =>
        exfalso
        have hmap : encMap ps c = mark q.2 := by unfold encMap; rw [hf]
        rw [hmap] at hpre
        have hpre2 : a :: stem2 <+: '_' :: (q.2 ++ ['_'] ++ encAll ps x2) := by
          have : mark q.2 ++ encAll ps x2 = '_' :: (q.2 ++ ['_'] ++ encAll ps x2) := by
            unfold mark
            simp [List.append_assoc]
          rw [this] at hpre
          exact hpre
        have := (List.cons_prefix_cons.mp hpre2).1
        exact (hstem a (List.mem_cons_self _ _)).1 this

theorem no_marker_after_underscore (ps : List (Char × Str)) (stem : Str) (x : Str)
    (hstem : ∀ ch ∈ stem, ch ≠ '_' ∧ ∀ q ∈ ps, q.1 ≠ ch)
    (hinf : ¬ stem <:+: x) :
    ¬ (stem ++ ['_']) <+: encAll ps x := by
  intro h
  have h1 : stem <+: encAll ps x := (List.prefix_append stem ['_']).trans h
  exact hinf (stem_transfer ps stem hstem x h1).isInfix

theorem stems_no_cross (stp : Str) :
    ∀ (stq tail : Str), (∀ ch ∈ stp, ch ≠ '_') → (∀ ch ∈ stq, ch ≠ '_') →
      stp ≠ stq → ¬ (stp ++ ['_']) <+: (stq ++ '_' :: tail) := by
  induction stp with
  | nil =>
    intro stq tail _ hq hne hpre
    cases stq with
    | nil => exact hne rfl
    | cons d stq2 =>
      have : ('_' : Char) = d := (List.cons_prefix_cons.mp hpre).1
      exact hq d (List.mem_cons_self _ _) this.symm
  | cons a stp2 ih =>
    intro stq tail hp hq hne hpre
    cases stq with
    | nil =>
      have : a = '_' := (List.cons_prefix_cons.mp hpre).1
      exact hp a (List.mem_cons_self _ _) this
    | cons d stq2 =>
      rw [List.cons_append] at hpre
      rw [List.cons_append] at hpre
      obtain ⟨had, hrest⟩ := List.cons_prefix_cons.mp hpre
      subst had
      have hp2 : ∀ ch ∈ stp2, ch ≠ '_' := fun ch hch => hp ch (List.mem_cons_of_mem a hch)
      have hq2 : ∀ ch ∈ stq2, ch ≠ '_' := fun ch hch => hq ch (List.mem_cons_of_mem a hch)
      have hne2 : stp2 ≠ stq2 := fun h => hne (by rw [h])
      exact ih stq2 tail hp2 hq2 hne2 hrest

theorem block_skip (stp stq tail : Str)
    (hp : ∀ ch ∈ stp, ch ≠ '_') (hq : ∀ ch ∈ stq, ch ≠ '_')
    (hne : stp ≠ stq)
    (htail : ¬ (stp ++ ['_']) <+: tail) :
    ∀ a1 a2, mark stq = a1 ++ a2 → a2 ≠ [] → ¬ (mark stp) <+: (a2 ++ tail) := by
  intro a1 a2 hsplit hne2 hpre
  cases a1 with
  | nil =>
    rw [List.nil_append] at hsplit
    subst hsplit
    have hshape : mark stq ++ tail = '_' :: (stq ++ '_' :: tail) := by
      unfold mark
      simp
    rw [hshape] at hpre
    have hshape2 : mark stp = '_' :: (stp ++ ['_']) := rfl
    rw [hshape2] at hpre
    exact stems_no_cross stp stq tail hp hq hne (List.cons_prefix_cons.mp hpre).2
  | cons c a1b =>
    have hsplit2 : ('_' : Char) :: (stq ++ ['_']) = c :: (a1b ++ a2) := by
      have : mark stq = '_' :: (stq ++ ['_']) := rfl
      rw [this, List.cons_append] at hsplit
      exact hsplit
    have hc : c = '_' := by
      have := List.cons.injEq _ _ _ _ ▸ hsplit2
      exact this.1.symm
    have hbody : a1b ++ a2 = stq ++ ['_'] := by
      have := List.cons.injEq _ _ _ _ ▸ hsplit2
      exact this.2.symm
    rcases List.append_eq_append_iff.mp hbody with ⟨w, hw1, hw2⟩ | ⟨w, hw1, hw2⟩
    · cases w with
      | nil =>
        rw [List.append_nil] at hw1
        simp only [List.nil_append] at hw2
        subst hw2
        have hshape2 : mark stp = '_' :: (stp ++ ['_']) := rfl
        rw [hshape2, List.cons_append] at hpre
        have : ('_' : Char) :: tail = ['_'] ++ tail := rfl
        have hrest := (List.cons_prefix_cons.mp hpre).2
        exact htail hrest
      | cons d w2 =>
        have hd : d ∈ stq := by rw [hw1]; exact List.mem_append_right _ (List.mem_cons_self _ _)
        have hdne : d ≠ '_' := hq d hd
        subst hw2
        rw [List.cons_append] at hpre
        have hshape2 : mark stp = '_' :: (stp ++ ['_']) := rfl
        rw [hshape2] at hpre
        have := (List.cons_prefix_cons.mp hpre).1
        exact hdne this.symm
    · have hw2size : w = [] ∨ w = ['_'] := by
        cases w with
        | nil => exact Or.inl rfl
        | cons e w2 =>
          right
          have := List.cons.injEq _ _ _ _ ▸ hw2
          obtain ⟨he, hrest⟩ := this
          cases w2 with
          | nil => rw [← he]
          | cons f w3 => exact absurd hrest.symm (List.cons_ne_nil _ _)
      rcases hw2size with rfl | rfl
      · rw [List.nil_append] at hw2
        subst hw2
        have hshape2 : mark stp = '_' :: (stp ++ ['_']) := rfl
        rw [hshape2, List.cons_append] at hpre
        exact htail (List.cons_prefix_cons.mp hpre).2
      · exfalso
        have : a2 = [] := by
          have := List.cons.injEq _ _ _ _ ▸ hw2
          exact this.2.symm
        exact hne2 this

theorem decode_stage (p : Char × Str) (rest : List (Char × Str))
    (hchars : ∀ ch ∈ p.2, ch ≠ '_' ∧ ∀ q2 ∈ p :: rest, q2.1 ≠ ch)
    (hrest_stems : ∀ q ∈ rest, ∀ ch ∈ q.2, ch ≠ '_')
    (hstems_ne : ∀ q ∈ rest, q.2 ≠ p.2)
    (hspec_ne : ∀ q ∈ rest, q.1 ≠ p.1) :
    ∀ x : Str, ¬ p.2 <:+: x →
      replaceAll (mark p.2) [p.1] (encAll (p :: rest) x) = encAll rest x := by
  intro x
  induction x with
  | nil => intro _; rfl
  | cons c x2 ih =>
    intro hinf
    have hinf2 : ¬ p.2 <:+: x2 := fun h => hinf (List.infix_cons h)
    have htail : ¬ (p.2 ++ ['_']) <+: encAll (p :: rest) x2 :=
      no_marker_after_underscore (p :: rest) p.2 x2 hchars hinf2
    have hene : encAll (p :: rest) (c :: x2) =
      encMap (p :: rest) c ++ encAll (p :: rest) x2 := rfl
    have hene2 : encAll rest (c :: x2) = encMap rest c ++ encAll rest x2 := rfl
    rw [hene, hene2]
    by_cases hc : p.1 = c
    · have hmap : encMap (p :: rest) c = mark p.2 := by
        unfold encMap
        have : (p :: rest).find? (fun q => q.1 = c) = some p := by
          simp [List.find?_cons, hc]
        rw [this]
      have hmap2 : encMap rest c = [p.1] := by
        unfold encMap
        have : rest.find? (fun q => q.1 = c) = none := by
          rw [List.find?_eq_none]
          intro q hq hdec
          exact hspec_ne q hq ((of_decide_eq_true hdec).trans hc.symm)
        rw [this, ← hc]
      rw [hmap, hmap2]
      rw [replaceAll_head_match (mark p.2) [p.1] _ (List.cons_ne_nil _ _)]
      rw [ih hinf2]
    · have hfind_cons : (p :: rest).find? (fun q => q.1 = c) =
          rest.find? (fun q => q.1 = c) := by
        simp [List.find?_cons, hc]
      cases hf : rest.find? (fun q => q.1 = c) with
      | some q =>
        have hqmem : q ∈ rest := List.mem_of_find?_eq_some hf
        have hmap : encMap (p :: rest) c = mark q.2 := by
          unfold encMap; rw [hfind_cons, hf]
        have hmap2 : encMap rest c = mark q.2 := by
          unfold encMap; rw [hf]
        rw [hmap, hmap2]
        have hsafe := block_skip p.2 q.2 (encAll (p :: rest) x2)
          (fun ch h => (hchars ch h).1) (hrest_stems q hqmem)
          (fun h => hstems_ne q hqmem h.symm) htail
        rw [replaceAll_skip_over (mark p.2) [p.1] (mark q.2) (encAll (p :: rest) x2) hsafe]
        rw [ih hinf2]
      | none =>
        have hmap : encMap (p :: rest) c = [c] := by
          unfold encMap; rw [hfind_cons, hf]
        have hmap2 : encMap rest c = [c] := by
          unfold encMap; rw [hf]
        rw [hmap, hmap2]
        have hmiss : ¬ (mark p.2) <+: (c :: encAll (p :: rest) x2) := by
          intro hpre
          have hshape : mark p.2 = '_' :: (p.2 ++ ['_']) := rfl
          rw [hshape] at hpre
          obtain ⟨hhead, hrest2⟩ := List.cons_prefix_cons.mp hpre
          by_cases hcu : c = '_'
          · exact htail hrest2
          · exact hcu hhead.symm
        have hsplit : ([c] : Str) ++ encAll (p :: rest) x2 = c :: encAll (p :: rest) x2 := rfl
        rw [hsplit, replaceAll_head_miss (mark p.2) [p.1] c _ hmiss, ih hinf2]
        rfl

theorem unsanitize_expand (k : Str) : unsanitizeKey k =
    replaceAll "_rbracket_".toList "]".toList (replaceAll "_lbracket_".toList "[".toList (replaceAll "_dollar_".toList "$".toList (replaceAll "_hash_".toList "#".toList (replaceAll "_dot_".toList ".".toList (replaceAll "_slash_".toList "/".toList (replaceAll "_lt_".toList "<".toList (replaceAll "_gt_".toList ">".toList (replaceAll "_pipe_".toList "|".toList k)))))))) := rfl

/-- Claim C4 (amended): the KeyCodec round-trip decode(encode(x)) = x does
hold for every raw string in which none of the nine marker stems (pipe,
gt, lt, slash, dot, hash, dollar, lbracket, rbracket) occurs as a
substring; in particular it holds for every cache key built from labels
and chains free of those stems. (The spec's weaker precondition - the
string does not already contain the full escape markers - is not enough;
see the counterexample.) -/
theorem claim4_roundtrip (x : Str)
    (hstems : ∀ q ∈ pairs, ¬ q.2 <:+: x) :
    unsanitizeKey (sanitizeKey x) = x := by
  have h1 : replaceAll "_pipe_".toList "|".toList (encAll pairs x)
      = encAll [('>', "gt".toList), ('<', "lt".toList), ('/', "slash".toList), ('.', "dot".toList), ('#', "hash".toList), ('$', "dollar".toList), ('[', "lbracket".toList), (']', "rbracket".toList)] x :=
    decode_stage ('|', "pipe".toList) [('>', "gt".toList), ('<', "lt".toList), ('/', "slash".toList), ('.', "dot".toList), ('#', "hash".toList), ('$', "dollar".toList), ('[', "lbracket".toList), (']', "rbracket".toList)]
      (by decide) (by decide) (by decide) (by decide) x
      (hstems ('|', "pipe".toList) (by decide))
  have h2 : replaceAll "_gt_".toList ">".toList (encAll [('>', "gt".toList), ('<', "lt".toList), ('/', "slash".toList), ('.', "dot".toList), ('#', "hash".toList), ('$', "dollar".toList), ('[', "lbracket".toList), (']', "rbracket".toList)] x)
      = encAll [('<', "lt".toList), ('/', "slash".toList), ('.', "dot".toList), ('#', "hash".toList), ('$', "dollar".toList), ('[', "lbracket".toList), (']', "rbracket".toList)] x :=
    decode_stage ('>', "gt".toList) [('<', "lt".toList), ('/', "slash".toList), ('.', "dot".toList), ('#', "hash".toList), ('$', "dollar".toList), ('[', "lbracket".toList), (']', "rbracket".toList)]
      (by decide) (by decide) (by decide) (by decide) x
      (hstems ('>', "gt".toList) (by decide))
  have h3 : replaceAll "_lt_".toList "<".toList (encAll [('<', "lt".toList), ('/', "slash".toList), ('.', "dot".toList), ('#', "hash".toList), ('$', "dollar".toList), ('[', "lbracket".toList), (']', "rbracket".toList)] x)
      = encAll [('/', "slash".toList), ('.', "dot".toList), ('#', "hash".toList), ('$', "dollar".toList), ('[', "lbracket".toList), (']', "rbracket".toList)] x :=
    decode_stage ('<', "lt".toList) [('/', "slash".toList), ('.', "dot".toList), ('#', "hash".toList), ('$', "dollar".toList), ('[', "lbracket".toList), (']', "rbracket".toList)]
      (by decide) (by decide) (by decide) (by decide) x
      (hstems ('<', "lt".toList) (by decide))
  have h4 : replaceAll "_slash_".toList "/".toList (encAll [('/', "slash".toList), ('.', "dot".toList), ('#', "hash".toList), ('$', "dollar".toList), ('[', "lbracket".toList), (']', "rbracket".toList)] x)
      = encAll [('.', "dot".toList), ('#', "hash".toList), ('$', "dollar".toList), ('[', "lbracket".toList), (']', "rbracket".toList)] x :=
    decode_stage ('/', "slash".toList) [('.', "dot".toList), ('#', "hash".toList), ('$', "dollar".toList), ('[', "lbracket".toList), (']', "rbracket".toList)]
      (by decide) (by decide) (by decide) (by decide) x
      (hstems ('/', "slash".toList) (by decide))
  have h5 : replaceAll "_dot_".toList ".".toList (encAll [('.', "dot".toList), ('#', "hash".toList), ('$', "dollar".toList), ('[', "lbracket".toList), (']', "rbracket".toList)] x)
      = encAll [('#', "hash".toList), ('$', "dollar".toList), ('[', "lbracket".toList), (']', "rbracket".toList)] x :=
    decode_stage ('.', "dot".toList) [('#', "hash".toList), ('$', "dollar".toList), ('[', "lbracket".toList), (']', "rbracket".toList)]
      (by decide) (by decide) (by decide) (by decide) x
      (hstems ('.', "dot".toList) (by decide))
  have h6 : replaceAll "_hash_".toList "#".toList (encAll [('#', "hash".toList), ('$', "dollar".toList), ('[', "lbracket".toList), (']', "rbracket".toList)] x)
      = encAll [('$', "dollar".toList), ('[', "lbracket".toList), (']', "rbracket".toList)] x :=
    decode_stage ('#', "hash".toList) [('$', "dollar".toList), ('[', "lbracket".toList), (']', "rbracket".toList)]
      (by decide) (by decide) (by decide) (by decide) x
      (hstems ('#', "hash".toList) (by decide))
  have h7 : replaceAll "_dollar_".toList "$".toList (encAll [('$', "dollar".toList), ('[', "lbracket".toList), (']', "rbracket".toList)] x)
      = encAll [('[', "lbracket".toList), (']', "rbracket".toList)] x :=
    decode_stage ('$', "dollar".toList) [('[', "lbracket".toList), (']', "rbracket".toList)]
      (by decide) (by decide) (by decide) (by decide) x
      (hstems ('$', "dollar".toList) (by decide))
  have h8 : replaceAll "_lbracket_".toList "[".toList (encAll [('[', "lbracket".toList), (']', "rbracket".toList)] x)
      = encAll [(']', "rbracket".toList)] x :=
    decode_stage ('[', "lbracket".toList) [(']', "rbracket".toList)]
      (by decide) (by decide) (by decide) (by decide) x
      (hstems ('[', "lbracket".toList) (by decide))
  have h9 : replaceAll "_rbracket_".toList "]".toList (encAll [(']', "rbracket".toList)] x)
      = encAll ([] : List (Char × Str)) x :=
    decode_stage (']', "rbracket".toList) ([] : List (Char × Str))
      (by decide) (by decide) (by decide) (by decide) x
      (hstems (']', "rbracket".toList) (by decide))
  rw [unsanitize_expand, sanitize_norm, h1, h2, h3, h4, h5, h6, h7, h8, h9]
  exact encAll_nil_pairs x

/-- Claim C4 counterexample: the raw string "_pipe|" contains none of the
nine full escape markers (the markers are the strings mark stem =
underscore-stem-underscore), yet decode(encode("_pipe|")) differs from
"_pipe|" - sanitizeKey yields "_pipe_pipe_", which unsanitizeKey turns
into "|pipe_". So the spec's contract clause (round-trip for all raw
strings that do not already contain the encoder's escape markers) is
false as stated. -/
theorem claim4_counterexample :
    (∀ q ∈ pairs, ¬ (mark q.2) <:+: ("_pipe|".toList : Str)) ∧
      unsanitizeKey (sanitizeKey ("_pipe|".toList : Str)) ≠ ("_pipe|".toList : Str) := by
  constructor
  · decide
  · decide

/-- Claim C4 witness: the stem-free string "a|b>c.d" satisfies the amended
precondition and round-trips. -/
theorem claim4_witness :
    (∀ q ∈ pairs, ¬ q.2 <:+: ("a|b>c.d".toList : Str)) ∧
      unsanitizeKey (sanitizeKey ("a|b>c.d".toList : Str)) = ("a|b>c.d".toList : Str) :=
  ⟨by decide, claim4_roundtrip ("a|b>c.d".toList : Str) (by decide)⟩
